import Mathlib

/-!
Verification development for the session-authentication and data-portability
engine of the `card_data_aggregation` dashboard (`streamlit_app/streamlit_app.py`).

Shallow embedding conventions:

* Python byte strings are `List Nat` (each element intended `< 256`); Python
  text strings are `List Char` (`PyStr`).
* External standard-library collaborators that the repository calls but does
  not define (the HMAC-SHA256 keyed digest `hmac.new(...).digest()` and the
  JSON codec `json.loads`) are universally quantified function parameters:
  every theorem about the token pipeline holds for an arbitrary digest
  function and an arbitrary deserializer, which is strictly stronger than
  fixing the concrete ones.
* The storage layer is modelled per identity: every query in the source
  filters on `user=user`, so a single user's rows (`decks`, `opponent_decks`,
  `results`) form the state.  The `(user, name)` unique constraints of the
  Django models appear as `Store.wf`.
* Machine integers do not overflow in any modelled path (Python ints are
  unbounded), so `Nat`/`Int` are used directly.
-/

/-- Python text strings, modelled as their character lists. -/
abbrev PyStr := List Char

/-- Python byte strings, modelled as lists of byte values. -/
abbrev Bytes := List Nat

/-- Python `str.strip()` whitespace test, restricted to the ASCII whitespace
characters that can appear in this data model. -/
def isPySpace (c : Char) : Bool :=
  c == ' ' || c == '\t' || c == '\n' || c == '\r' ||
    c == Char.ofNat 11 || c == Char.ofNat 12

/-- Python `str.strip()`: drop leading and trailing whitespace. -/
def pyStrip (s : PyStr) : PyStr :=
  ((s.dropWhile isPySpace).reverse.dropWhile isPySpace).reverse

/-- Character of the urlsafe base64 alphabet at index `v` (source uses
`base64.urlsafe_b64encode`). -/
def b64Char (v : Nat) : Char :=
  if v < 26 then Char.ofNat (65 + v)
  else if v < 52 then Char.ofNat (97 + (v - 26))
  else if v < 62 then Char.ofNat (48 + (v - 52))
  else if v = 62 then '-' else '_'

/-- Index of a character in the base64 alphabet as `urlsafe_b64decode` sees
it: the urlsafe translation `-` → `+`, `_` → `/` is folded in, and the
standard `+`/`/` remain valid (the translation touches nothing else);
`none` for characters outside the table. -/
def b64CharVal (c : Char) : Option Nat :=
  let n := c.toNat
  if 65 ≤ n && n ≤ 90 then some (n - 65)
  else if 97 ≤ n && n ≤ 122 then some (26 + (n - 97))
  else if 48 ≤ n && n ≤ 57 then some (52 + (n - 48))
  else if c == '-' || c == '+' then some 62
  else if c == '_' || c == '/' then some 63
  else none

/-- Padded urlsafe base64 of a byte list, chunked in threes exactly as the
underlying encoder works (models `base64.urlsafe_b64encode`). -/
def b64padded : Bytes → List Char
  | [] => []
  | [x] => [b64Char (x / 4), b64Char (x % 4 * 16), '=', '=']
  | [x, y] => [b64Char (x / 4), b64Char (x % 4 * 16 + y / 16), b64Char (y % 16 * 4), '=']
  | x :: y :: z :: rest =>
      b64Char (x / 4) :: b64Char (x % 4 * 16 + y / 16) ::
        b64Char (y % 16 * 4 + z / 64) :: b64Char (z % 64) :: b64padded rest

/-- Python `str.rstrip("=")`: drop trailing `=` characters. -/
def rstripEq (s : List Char) : List Char :=
  (s.reverse.dropWhile (· == '=')).reverse

/-- Source `_b64url_encode`: urlsafe base64 with the padding stripped. -/
def b64url_encode (raw : Bytes) : List Char :=
  rstripEq (b64padded raw)

/-- Core of `binascii.a2b_base64` in its legacy (non-strict) mode, exactly
as `base64.urlsafe_b64decode` invokes it: characters outside the table are
discarded; `=` is ignored while fewer than two data characters of the
current quad have been seen; once two or three have been seen, enough `=`
characters end decoding successfully with the bytes emitted so far (any
surplus input is ignored), and a data character resets the pad count; a
residual quad at the end of input is an error.  State: `quad_pos` counts
data characters of the current quad, `leftchar` holds their leftover bits,
`pads` counts the pending `=` run. -/
def a2bBase64 : List Char → Nat → Nat → Nat → Option Bytes
  | [], quad_pos, _, _ => if quad_pos = 0 then some [] else none
  | c :: rest, quad_pos, leftchar, pads =>
      if c == '=' then
        if 2 ≤ quad_pos then
          if 4 ≤ quad_pos + (pads + 1) then some []
          else a2bBase64 rest quad_pos leftchar (pads + 1)
        else a2bBase64 rest quad_pos leftchar pads
      else
        match b64CharVal c with
        | none => a2bBase64 rest quad_pos leftchar pads
        | some v =>
            match quad_pos with
            | 0 => a2bBase64 rest 1 v 0
            | 1 => (a2bBase64 rest 2 (v % 16) 0).map
                (fun tl => (leftchar * 4 + v / 16) :: tl)
            | 2 => (a2bBase64 rest 3 (v % 4) 0).map
                (fun tl => (leftchar * 16 + v / 4) :: tl)
            | _ => (a2bBase64 rest 0 0 0).map
                (fun tl => (leftchar * 64 + v) :: tl)

/-- Source `_b64url_decode`: re-append the dropped padding, encode to ASCII
(a non-ASCII character raises, which the caller catches), then decode with
the lenient legacy decoder above. -/
def b64url_decode (raw : List Char) : Option Bytes :=
  if (raw ++ List.replicate ((4 - raw.length % 4) % 4) '=').all
      (fun c => decide (c.toNat < 128)) then
    a2bBase64 (raw ++ List.replicate ((4 - raw.length % 4) % 4) '=') 0 0 0
  else none

/-- Source `_sign_payload` with the keyed digest (`hmac.new(secret, msg,
sha256).digest()`) abstracted as the function parameter `mac`. -/
def sign_payload (mac : Bytes → Bytes → Bytes) (payload_json : Bytes) (secret : Bytes) :
    List Char :=
  b64url_encode (mac secret payload_json)

/-- Python `token.split(".", 1)`: the part before the first dot and the part
after it; `none` when the token has no dot (the source then raises a
`ValueError` that the caller catches). -/
def splitOnceDot : List Char → Option (List Char × List Char)
  | [] => none
  | c :: rest =>
      if c == '.' then some ([], rest)
      else
        match splitOnceDot rest with
        | some (p, s) => some (c :: p, s)
        | none => none

/-- JSON values as produced by `json.loads` on this application's payloads.
Numeric values in the modelled payloads are integral (`exp` is compared as a
number; fingerprint components are built with `int(...)`), and Python `bool`
is a subclass of `int`, so both constructors participate in numeric reads. -/
inductive Json where
  | jnull : Json
  | jbool (b : Bool) : Json
  | jint (n : Int) : Json
  | jstr (s : PyStr) : Json
  | jarr (xs : List Json) : Json
  | jobj (kvs : List (String × Json)) : Json

/-- Test for `isinstance(payload, dict)`. -/
def Json.isObj : Json → Bool
  | .jobj _ => true
  | _ => false

/-- Python `dict.get` on a JSON object (later duplicate keys win, as in the
dict `json.loads` builds); `none` both for a missing key and a non-dict. -/
def payloadGet (payload : Json) (k : String) : Option Json :=
  match payload with
  | .jobj kvs => (kvs.reverse.find? (fun kv => kv.1 == k)).map (·.2)
  | _ => none

/-- Source `_decode_auth_token`.  `mac` abstracts the HMAC-SHA256 digest and
`loads` abstracts `json.loads ∘ utf-8-decode`; every failure along the
pipeline (no separator, invalid base64, signature mismatch, deserialization
error, non-dict payload) collapses to `none` exactly as the enclosing
`try/except` does. -/
def decode_auth_token (mac : Bytes → Bytes → Bytes) (loads : Bytes → Option Json)
    (token : List Char) (secret : Bytes) : Option Json :=
  match splitOnceDot token with
  | none => none
  | some (p, s) =>
      match b64url_decode p with
      | none => none
      | some payload_json =>
          if s ≠ sign_payload mac payload_json secret then none
          else
            match loads payload_json with
            | none => none
            | some payload => if payload.isObj then some payload else none

/-- Source `_encode_auth_token`, with `dumps` abstracting the deterministic
`json.dumps(..., separators=(",", ":"))` serializer. -/
def encode_auth_token (mac : Bytes → Bytes → Bytes) (dumps : Json → Bytes)
    (payload : Json) (secret : Bytes) : List Char :=
  b64url_encode (dumps payload) ++ '.' :: sign_payload mac (dumps payload) secret

/-- Fingerprint of the storage file: `{"size": int(st.st_size), "mtime":
int(st.st_mtime)}`. -/
structure Fingerprint where
  size : Int
  mtime : Int
deriving DecidableEq, Repr

/-- The canonical JSON form of a fingerprint as the login path builds it. -/
def fpJson (f : Fingerprint) : Json :=
  .jobj [("size", .jint f.size), ("mtime", .jint f.mtime)]

/-- Python `==` between a JSON value and an `int` (`bool` equals its numeric
value, as in Python). -/
def jNumEqInt : Json → Int → Bool
  | .jint m, n => m == n
  | .jbool b, n => (if b then (1 : Int) else 0) == n
  | _, _ => false

/-- Python `==` between a decoded JSON value and the expected fingerprint
dict: a dict with exactly the keys `size` and `mtime` whose values are
numerically equal to the components. -/
def matchesFp : Json → Fingerprint → Bool
  | .jobj kvs, f =>
      (kvs.map Prod.fst).contains "size" && (kvs.map Prod.fst).contains "mtime" &&
        kvs.all (fun kv => kv.1 == "size" || kv.1 == "mtime") &&
        (match (kvs.reverse.find? (fun kv => kv.1 == "size")).map (·.2) with
         | some v => jNumEqInt v f.size
         | none => false) &&
        (match (kvs.reverse.find? (fun kv => kv.1 == "mtime")).map (·.2) with
         | some v => jNumEqInt v f.mtime
         | none => false)
  | _, _ => false

/-- Read of `payload.get("exp")` under `isinstance(exp, (int, float))`
(Python `bool` passes that test and `float(True) == 1.0`). -/
def expNum : Option Json → Option Int
  | some (.jint n) => some n
  | some (.jbool b) => some (if b then 1 else 0)
  | _ => none

/-- Read of `payload.get("user_id")` under `isinstance(uid, int)`. -/
def uidNum : Option Json → Option Int
  | some (.jint n) => some n
  | some (.jbool b) => some (if b then 1 else 0)
  | _ => none

/-- Read of `payload.get("username")` under `isinstance(uname, str)`. -/
def unameStr : Option Json → Option PyStr
  | some (.jstr s) => some s
  | _ => none

/-- The in-memory identity stored by `_set_auth_state`. -/
structure AuthState where
  user_id : Int
  username : PyStr
deriving DecidableEq, Repr

/-- Validation half of `_restore_auth_from_cookie_if_possible` (source lines
after a successful decode): expiry check `time.time() > float(exp)`, storage
fingerprint comparison `payload.get("db_fp") != expected_fp`, and the
identity field checks.  `now` is the integral clock reading and `dbFp` is
`none` when the storage file is missing or cannot be stat-ed. -/
def restoreFromPayload (payload : Json) (now : Int) (dbFp : Option Fingerprint) :
    Option AuthState :=
  match expNum (payloadGet payload "exp") with
  | none => none
  | some e =>
      if now > e then none
      else
        match dbFp with
        | none => none
        | some f =>
            if !(match payloadGet payload "db_fp" with
                 | some v => matchesFp v f
                 | none => false) then none
            else
              match uidNum (payloadGet payload "user_id"),
                  unameStr (payloadGet payload "username") with
              | some uid, some uname =>
                  if uname.isEmpty then none else some ⟨uid, uname⟩
              | _, _ => none

/-- Source `_restore_auth_from_cookie_if_possible` as a function from the
ambient request data to the resulting authentication state: an existing
session wins, a missing secret or missing/empty cookie restores nothing, and
otherwise decoding and payload validation decide. -/
def restore_auth_from_cookie (mac : Bytes → Bytes → Bytes)
    (loads : Bytes → Option Json) (existing : Option AuthState)
    (secret : Option Bytes) (cookie : Option (List Char)) (now : Int)
    (dbFp : Option Fingerprint) : Option AuthState :=
  match existing with
  | some a => some a
  | none =>
      match secret with
      | none => none
      | some sec =>
          match cookie with
          | none => none
          | some token =>
              if token.isEmpty then none
              else
                match decode_auth_token mac loads token sec with
                | none => none
                | some payload => restoreFromPayload payload now dbFp

/-- Python `datetime.date`: a calendar date. -/
structure PyDate where
  year : Nat
  month : Nat
  day : Nat
deriving DecidableEq, Repr

/-- Gregorian leap-year test, as `datetime` uses. -/
def isLeap (y : Nat) : Bool :=
  (y % 4 == 0 && y % 100 != 0) || y % 400 == 0

/-- Days in a month of the proleptic Gregorian calendar. -/
def daysInMonth (y m : Nat) : Nat :=
  if m == 2 then (if isLeap y then 29 else 28)
  else if m == 4 || m == 6 || m == 9 || m == 11 then 30
  else 31

/-- Validity of a `datetime.date` (its constructor enforces these ranges). -/
def PyDate.ok (d : PyDate) : Prop :=
  1 ≤ d.year ∧ d.year ≤ 9999 ∧ 1 ≤ d.month ∧ d.month ≤ 12 ∧
    1 ≤ d.day ∧ d.day ≤ daysInMonth d.year d.month

instance (d : PyDate) : Decidable d.ok := by
  unfold PyDate.ok; infer_instance

/-- Decimal digit character. -/
def digitChar (n : Nat) : Char := Char.ofNat (48 + n % 10)

/-- Source-side `date.isoformat()`: `YYYY-MM-DD`, zero padded, for years up
to 9999. -/
def dateIso (d : PyDate) : PyStr :=
  [digitChar (d.year / 1000), digitChar (d.year / 100), digitChar (d.year / 10),
    digitChar d.year, '-', digitChar (d.month / 10), digitChar d.month, '-',
    digitChar (d.day / 10), digitChar d.day]

/-- Value of a decimal digit character, `none` otherwise. -/
def digitVal (c : Char) : Option Nat :=
  if 48 ≤ c.toNat && c.toNat ≤ 57 then some (c.toNat - 48) else none

/-- Import-side `date.fromisoformat` on the canonical `YYYY-MM-DD` layout:
parses the ten-character form and validates the ranges, `none` (a Python
`ValueError`) otherwise. -/
def dateFromIso (s : PyStr) : Option PyDate :=
  match s with
  | [y1, y2, y3, y4, h1, m1, m2, h2, d1, d2] =>
      if h1 == '-' && h2 == '-' then
        match digitVal y1, digitVal y2, digitVal y3, digitVal y4,
            digitVal m1, digitVal m2, digitVal d1, digitVal d2 with
        | some a, some b, some c, some d, some e, some f, some g, some h =>
            let dt : PyDate :=
              ⟨a * 1000 + b * 100 + c * 10 + d, e * 10 + f, g * 10 + h⟩
            if dt.ok then some dt else none
        | _, _, _, _, _, _, _, _ => none
      else none
  | _ => none

/-- A deck or opponent-deck row of the store (`Deck` / `OpponentDeck` model:
`(owner, name)` unique, `is_active` flag).  Rows are listed in `id` order. -/
structure DeckRec where
  name : PyStr
  is_active : Bool
deriving DecidableEq, Repr

/-- A match-result row of the store (`Result` model).  The nullable
opponent-deck foreign key is represented by the referenced row's name, which
is unique per owner. -/
structure ResultRec where
  date : PyDate
  used_deck : PyStr
  opponent_deck : Option PyStr
  play_order : PyStr
  match_result : PyStr
  note : PyStr
deriving DecidableEq, Repr

/-- One identity's slice of the store, each collection in `id` order. -/
structure Store where
  decks : List DeckRec
  opps : List DeckRec
  results : List ResultRec
deriving DecidableEq, Repr

/-- The `(user, name)` unique constraints of the `Deck` and `OpponentDeck`
models. -/
def Store.wf (s : Store) : Prop :=
  (s.decks.map (·.name)).Nodup ∧ (s.opps.map (·.name)).Nodup

/-- A CSV row of `decks.csv` / `opponent_decks.csv` as `csv.DictReader`
yields it (`none` for a missing column). -/
structure CsvDeckRow where
  name : Option PyStr
  is_active : Option PyStr
deriving DecidableEq, Repr

/-- A CSV row of `results.csv` as `csv.DictReader` yields it. -/
structure CsvResultRow where
  date : Option PyStr
  used_deck : Option PyStr
  opponent_deck : Option PyStr
  play_order : Option PyStr
  match_result : Option PyStr
  note : Option PyStr
deriving DecidableEq, Repr

/-- The parsed ZIP archive: each entry is `none` when its member file is
absent from the archive (the CSV text encoding itself is out of scope, per
the specification). -/
structure Archive where
  decks : Option (List CsvDeckRow)
  opponent_decks : Option (List CsvDeckRow)
  results : Option (List CsvResultRow)
deriving DecidableEq, Repr

/-- Python `(row.get(k) or "")`: a missing column and an empty value both
become the empty string. -/
def getS (o : Option PyStr) : PyStr := o.getD []

/-- Truthy `is_active` strings of the importer. -/
def truthyActive (s : PyStr) : Bool :=
  let v := pyStrip s
  v == "1".toList || v == "true".toList || v == "True".toList ||
    v == "yes".toList || v == "on".toList

/-- Stripped name of a CSV deck row (`(row.get("name") or "").strip()`). -/
def rowName (row : CsvDeckRow) : PyStr := pyStrip (getS row.name)

/-- Parsed flag of a CSV deck row. -/
def rowFlag (row : CsvDeckRow) : Bool := truthyActive (getS row.is_active)

/-- Replace the `is_active` flag of the first row named `n` (the row
`get_or_create` returns under the uniqueness constraint). -/
def setFlag : List DeckRec → PyStr → Bool → List DeckRec
  | [], _, _ => []
  | d :: rest, n, a =>
      if d.name == n then ⟨d.name, a⟩ :: rest else d :: setFlag rest n a

/-- One iteration of the deck/opponent-deck loop of `_import_user_data_zip`:
strip the name, skip blanks, `get_or_create` by name, and update the flag
only when it differs. -/
def applyDeckRow (ds : List DeckRec) (row : CsvDeckRow) : List DeckRec :=
  if (rowName row).isEmpty then ds
  else
    match ds.find? (fun d => d.name == rowName row) with
    | none => ds ++ [⟨rowName row, rowFlag row⟩]
    | some d =>
        if d.is_active != rowFlag row then setFlag ds (rowName row) (rowFlag row) else ds

/-- Counter increment of the same loop iteration: rows with a blank name are
skipped and not counted. -/
def deckRowCount (row : CsvDeckRow) : Nat :=
  if (rowName row).isEmpty then 0 else 1

/-- The whole deck (or opponent-deck) phase with its counter. -/
def applyDeckRows (ds : List DeckRec) (rows : List CsvDeckRow) :
    List DeckRec × Nat :=
  match rows with
  | [] => (ds, 0)
  | row :: rest =>
      let out := applyDeckRows (applyDeckRow ds row) rest
      (out.1, deckRowCount row + out.2)

/-- Stripped opponent-deck name of a CSV result row. -/
def oppRef (row : CsvResultRow) : PyStr := pyStrip (getS row.opponent_deck)

/-- The stored result row built from one `results.csv` row: lenient date
parse falling back to `today`, stripped text fields, empty `match_result`
replaced by the win marker, and the opponent link carrying the stripped
nonempty name. -/
def convResultRow (today : PyDate) (row : CsvResultRow) : ResultRec :=
  let raw_date := pyStrip (getS row.date)
  let d := if raw_date.isEmpty then today
    else match dateFromIso raw_date with
      | some dd => dd
      | none => today
  let m := pyStrip (getS row.match_result)
  { date := d
    used_deck := pyStrip (getS row.used_deck)
    opponent_deck := if (oppRef row).isEmpty then none else some (oppRef row)
    play_order := pyStrip (getS row.play_order)
    match_result := if m.isEmpty then "〇".toList else m
    note := pyStrip (getS row.note) }

/-- Opponent-deck `get_or_create` performed by a result row: a nonempty
opponent name absent from the collection is created with `is_active = True`.
-/
def resultRowOpps (os : List DeckRec) (row : CsvResultRow) : List DeckRec :=
  if (oppRef row).isEmpty then os
  else
    match os.find? (fun d => d.name == oppRef row) with
    | some _ => os
    | none => os ++ [⟨oppRef row, true⟩]

/-- The result phase of `_import_user_data_zip`: every row unconditionally
inserts one new result (after resolving its opponent deck); nothing is ever
updated or deduplicated. -/
def applyResultRows (today : PyDate) (os : List DeckRec) (rs : List ResultRec) :
    List CsvResultRow → List DeckRec × List ResultRec
  | [] => (os, rs)
  | row :: rest =>
      applyResultRows today (resultRowOpps os row) (rs ++ [convResultRow today row]) rest

/-- Import counters returned by `_import_user_data_zip`. -/
structure Counts where
  decks : Nat
  opponent_decks : Nat
  results : Nat
deriving DecidableEq, Repr

/-- The empty store left by the purge (`delete()` of the identity's results,
decks and opponent decks, in that order). -/
def emptyStore : Store := ⟨[], [], []⟩

/-- Source `_import_user_data_zip` after ZIP parsing: missing entries behave
as empty row lists, an optional purge clears the identity's data, then the
deck, opponent-deck and result phases run in order inside one transaction.
`today` is the `date.today()` fallback of the lenient date parse. -/
def import_user_data (today : PyDate) (s : Store) (a : Archive)
    (purge_before : Bool) : Store × Counts :=
  let decksCsv := a.decks.getD []
  let oppCsv := a.opponent_decks.getD []
  let resultsCsv := a.results.getD []
  let s0 := if purge_before then emptyStore else s
  let dOut := applyDeckRows s0.decks decksCsv
  let oOut := applyDeckRows s0.opps oppCsv
  let rOut := applyResultRows today oOut.1 s0.results resultsCsv
  (⟨dOut.1, rOut.1, rOut.2⟩, ⟨dOut.2, oOut.2, resultsCsv.length⟩)

/-- Exported CSV row of a deck (`is_active` serialized as `1`/`0` through
`int(bool(...))`). -/
def exportDeckRow (d : DeckRec) : CsvDeckRow :=
  ⟨some d.name, some (if d.is_active then "1".toList else "0".toList)⟩

/-- Exported CSV row of a result (`date.isoformat()`, opponent name or empty
string for a null link). -/
def exportResultRow (r : ResultRec) : CsvResultRow :=
  { date := some (dateIso r.date)
    used_deck := some r.used_deck
    opponent_deck := some (r.opponent_deck.getD [])
    play_order := some r.play_order
    match_result := some r.match_result
    note := some r.note }

/-- Source `_export_user_data_zip`: all three entries are always written, in
`id` order. -/
def export_user_data (s : Store) : Archive :=
  { decks := some (s.decks.map exportDeckRow)
    opponent_decks := some (s.opps.map exportDeckRow)
    results := some (s.results.map exportResultRow) }

/-! Base64 lemmas. -/

theorem b64CharVal_b64Char : ∀ v, v < 64 → b64CharVal (b64Char v) = some v := by
  decide

theorem b64Char_ne_pad : ∀ v, b64Char v ≠ '=' := by
  intro v
  unfold b64Char
  split
  · next h => interval_cases v <;> decide
  · split
    · next h h' => interval_cases v <;> decide
    · split
      · next h h' h'' => interval_cases v <;> decide
      · split
        · next => subst_eqs; decide
        · decide

theorem dropWhile_pad_of_clean (l : List Char) (h : ∀ c ∈ l, c ≠ '=') :
    l.dropWhile (· == '=') = l := by
  cases l with
  | nil => rfl
  | cons c t =>
      have hc : (c == '=') = false := by
        have := h c (List.mem_cons_self c t)
        simpa using this
      simp [List.dropWhile_cons, hc]

theorem rstripEq_append_pad (core : List Char) (k : Nat)
    (h : ∀ c ∈ core, c ≠ '=') :
    rstripEq (core ++ List.replicate k '=') = core := by
  unfold rstripEq
  rw [List.reverse_append, List.reverse_replicate]
  have hdrop : ∀ m (l : List Char),
      (List.replicate m '=' ++ l).dropWhile (· == '=') = l.dropWhile (· == '=') := by
    intro m
    induction m with
    | zero => intro l; simp
    | succ n ih => intro l; simp [List.replicate_succ, ih l]
  rw [hdrop, dropWhile_pad_of_clean core.reverse (by
    intro c hc; exact h c (List.mem_reverse.mp hc)), List.reverse_reverse]

/-- Number of `=` characters the padded encoding of `bs` carries. -/
def b64PadCount (bs : Bytes) : Nat :=
  match bs.length % 3 with
  | 0 => 0
  | 1 => 2
  | _ => 1

theorem b64padded_structure : ∀ bs : Bytes,
    b64padded bs = b64url_encode bs ++ List.replicate (b64PadCount bs) '=' ∧
      (∀ c ∈ b64url_encode bs, c ≠ '=') ∧ (b64padded bs).length % 4 = 0 := by
  intro bs
  induction bs using b64padded.induct with
  | case1 =>
      refine ⟨by simp [b64url_encode, rstripEq, b64PadCount, b64padded], ?_, by simp [b64padded]⟩
      simp [b64url_encode, rstripEq, b64padded]
  | case2 x =>
      have hclean : ∀ c ∈ [b64Char (x / 4), b64Char (x % 4 * 16)], c ≠ '=' := by
        intro c hc
        rcases List.mem_pair.mp hc with h | h <;> (subst h; exact b64Char_ne_pad _)
      have henc : b64url_encode [x] = [b64Char (x / 4), b64Char (x % 4 * 16)] := by
        have : b64padded [x] =
            [b64Char (x / 4), b64Char (x % 4 * 16)] ++ List.replicate 2 '=' := by
          simp [b64padded, List.replicate]
        rw [b64url_encode, this, rstripEq_append_pad _ _ hclean]
      refine ⟨?_, ?_, by simp [b64padded]⟩
      · rw [henc]; simp [b64padded, b64PadCount, List.replicate]
      · rw [henc]; exact hclean
  | case3 x y =>
      have hclean : ∀ c ∈ [b64Char (x / 4), b64Char (x % 4 * 16 + y / 16),
          b64Char (y % 16 * 4)], c ≠ '=' := by
        intro c hc
        simp only [List.mem_cons, List.not_mem_nil, or_false] at hc
        rcases hc with h | h | h <;> (subst h; exact b64Char_ne_pad _)
      have henc : b64url_encode [x, y] = [b64Char (x / 4), b64Char (x % 4 * 16 + y / 16),
          b64Char (y % 16 * 4)] := by
        have : b64padded [x, y] = [b64Char (x / 4), b64Char (x % 4 * 16 + y / 16),
            b64Char (y % 16 * 4)] ++ List.replicate 1 '=' := by
          simp [b64padded, List.replicate]
        rw [b64url_encode, this, rstripEq_append_pad _ _ hclean]
      refine ⟨?_, ?_, by simp [b64padded]⟩
      · rw [henc]; simp [b64padded, b64PadCount, List.replicate]
      · rw [henc]; exact hclean
  | case4 x y z rest ih =>
      obtain ⟨hpad, hclean, hlen⟩ := ih
      have hcleanA : ∀ c ∈ [b64Char (x / 4), b64Char (x % 4 * 16 + y / 16),
          b64Char (y % 16 * 4 + z / 64), b64Char (z % 64)] ++ b64url_encode rest, c ≠ '=' := by
        intro c hc
        rcases List.mem_append.mp hc with h | h
        · simp only [List.mem_cons, List.not_mem_nil, or_false] at h
          rcases h with h | h | h | h <;> (subst h; exact b64Char_ne_pad _)
        · exact hclean c h
      have hpad4 : b64padded (x :: y :: z :: rest) =
          ([b64Char (x / 4), b64Char (x % 4 * 16 + y / 16),
            b64Char (y % 16 * 4 + z / 64), b64Char (z % 64)] ++ b64url_encode rest) ++
            List.replicate (b64PadCount rest) '=' := by
        simp [b64padded, hpad]
      have henc : b64url_encode (x :: y :: z :: rest) =
          [b64Char (x / 4), b64Char (x % 4 * 16 + y / 16),
            b64Char (y % 16 * 4 + z / 64), b64Char (z % 64)] ++ b64url_encode rest := by
        rw [b64url_encode, hpad4, rstripEq_append_pad _ _ hcleanA]
      have hlen3 : (x :: y :: z :: rest).length % 3 = rest.length % 3 := by
        simp [List.length_cons]; omega
      have hcount : b64PadCount (x :: y :: z :: rest) = b64PadCount rest := by
        unfold b64PadCount; rw [hlen3]
      refine ⟨?_, ?_, ?_⟩
      · rw [henc, hcount, hpad4]
      · rw [henc]; exact hcleanA
      · have : (b64padded (x :: y :: z :: rest)).length = 4 + (b64padded rest).length := by
          simp [b64padded]; omega
        omega

theorem b64Char_ascii : ∀ v, (b64Char v).toNat < 128 := by
  intro v
  unfold b64Char
  split
  · next h => interval_cases v <;> decide
  · split
    · next h h' => interval_cases v <;> decide
    · split
      · next h h' h'' => interval_cases v <;> decide
      · split
        · next => subst_eqs; decide
        · decide

theorem b64padded_ascii : ∀ bs : Bytes, ∀ c ∈ b64padded bs, c.toNat < 128 := by
  intro bs
  induction bs using b64padded.induct with
  | case1 => intro c hc; simp [b64padded] at hc
  | case2 x =>
      intro c hc
      simp only [b64padded, List.mem_cons, List.not_mem_nil, or_false] at hc
      rcases hc with h | h | h | h <;> subst h <;>
        first
          | exact b64Char_ascii _
          | decide
  | case3 x y =>
      intro c hc
      simp only [b64padded, List.mem_cons, List.not_mem_nil, or_false] at hc
      rcases hc with h | h | h | h <;> subst h <;>
        first
          | exact b64Char_ascii _
          | decide
  | case4 x y z rest ih =>
      intro c hc
      simp only [b64padded, List.mem_cons] at hc
      rcases hc with h | h | h | h | h
      · subst h; exact b64Char_ascii _
      · subst h; exact b64Char_ascii _
      · subst h; exact b64Char_ascii _
      · subst h; exact b64Char_ascii _
      · exact ih c h

theorem a2b_b64padded : ∀ bs : Bytes, (∀ b ∈ bs, b < 256) →
    ∀ lc, a2bBase64 (b64padded bs) 0 lc 0 = some bs := by
  intro bs
  induction bs using b64padded.induct with
  | case1 => intro _ lc; rfl
  | case2 x =>
      intro h lc
      have hx : x < 256 := h x (by simp)
      have h1 : b64CharVal (b64Char (x / 4)) = some (x / 4) :=
        b64CharVal_b64Char _ (by omega)
      have h2 : b64CharVal (b64Char (x % 4 * 16)) = some (x % 4 * 16) :=
        b64CharVal_b64Char _ (by omega)
      have hne1 : (b64Char (x / 4) == '=') = false := by
        simpa using b64Char_ne_pad (x / 4)
      have hne2 : (b64Char (x % 4 * 16) == '=') = false := by
        simpa using b64Char_ne_pad (x % 4 * 16)
      simp [b64padded, a2bBase64, hne1, hne2, h1, h2]
      omega
  | case3 x y =>
      intro h lc
      have hx : x < 256 := h x (by simp)
      have hy : y < 256 := h y (by simp)
      have h1 : b64CharVal (b64Char (x / 4)) = some (x / 4) :=
        b64CharVal_b64Char _ (by omega)
      have h2 : b64CharVal (b64Char (x % 4 * 16 + y / 16)) = some (x % 4 * 16 + y / 16) :=
        b64CharVal_b64Char _ (by omega)
      have h3 : b64CharVal (b64Char (y % 16 * 4)) = some (y % 16 * 4) :=
        b64CharVal_b64Char _ (by omega)
      have hne1 : (b64Char (x / 4) == '=') = false := by
        simpa using b64Char_ne_pad (x / 4)
      have hne2 : (b64Char (x % 4 * 16 + y / 16) == '=') = false := by
        simpa using b64Char_ne_pad (x % 4 * 16 + y / 16)
      have hne3 : (b64Char (y % 16 * 4) == '=') = false := by
        simpa using b64Char_ne_pad (y % 16 * 4)
      simp [b64padded, a2bBase64, hne1, hne2, hne3, h1, h2, h3]
      constructor <;> omega
  | case4 x y z rest ih =>
      intro h lc
      have hx : x < 256 := h x (by simp)
      have hy : y < 256 := h y (by simp)
      have hz : z < 256 := h z (by simp)
      have hrest := ih (fun b hb => h b (by simp [hb])) 0
      have h1 : b64CharVal (b64Char (x / 4)) = some (x / 4) :=
        b64CharVal_b64Char _ (by omega)
      have h2 : b64CharVal (b64Char (x % 4 * 16 + y / 16)) = some (x % 4 * 16 + y / 16) :=
        b64CharVal_b64Char _ (by omega)
      have h3 : b64CharVal (b64Char (y % 16 * 4 + z / 64)) = some (y % 16 * 4 + z / 64) :=
        b64CharVal_b64Char _ (by omega)
      have h4 : b64CharVal (b64Char (z % 64)) = some (z % 64) :=
        b64CharVal_b64Char _ (by omega)
      have hne1 : (b64Char (x / 4) == '=') = false := by
        simpa using b64Char_ne_pad (x / 4)
      have hne2 : (b64Char (x % 4 * 16 + y / 16) == '=') = false := by
        simpa using b64Char_ne_pad (x % 4 * 16 + y / 16)
      have hne3 : (b64Char (y % 16 * 4 + z / 64) == '=') = false := by
        simpa using b64Char_ne_pad (y % 16 * 4 + z / 64)
      have hne4 : (b64Char (z % 64) == '=') = false := by
        simpa using b64Char_ne_pad (z % 64)
      simp [b64padded, a2bBase64, hne1, hne2, hne3, hne4, h1, h2, h3, h4, hrest]
      refine ⟨by omega, by omega, by omega⟩

theorem b64padded_all_ascii (bs : Bytes) :
    (b64padded bs).all (fun c => decide (c.toNat < 128)) = true := by
  refine List.all_eq_true.mpr ?_
  intro c hc
  simpa using b64padded_ascii bs c hc

theorem b64url_decode_encode (bs : Bytes) (h : ∀ b ∈ bs, b < 256) :
    b64url_decode (b64url_encode bs) = some bs := by
  obtain ⟨hpad, hclean, hlen⟩ := b64padded_structure bs
  have hk : b64PadCount bs < 4 := by
    unfold b64PadCount; split <;> omega
  have hlenenc : (b64url_encode bs).length + b64PadCount bs = (b64padded bs).length := by
    rw [hpad]; simp
  have hmod : (4 - (b64url_encode bs).length % 4) % 4 = b64PadCount bs := by omega
  rw [b64url_decode, hmod, ← hpad, if_pos (b64padded_all_ascii bs)]
  exact a2b_b64padded bs h 0

theorem b64url_decode_encode_padded (bs : Bytes) (h3 : bs.length % 3 = 2)
    (h : ∀ b ∈ bs, b < 256) :
    b64url_decode (b64url_encode bs ++ ['=']) = some bs := by
  obtain ⟨hpad, hclean, hlen⟩ := b64padded_structure bs
  have hcount : b64PadCount bs = 1 := by
    unfold b64PadCount; rw [h3]
  have hone : b64url_encode bs ++ ['='] = b64padded bs := by
    rw [hpad, hcount]; rfl
  have hlenenc : (b64url_encode bs ++ ['=']).length % 4 = 0 := by
    rw [hone]; exact hlen
  rw [b64url_decode, hlenenc]
  simp only [Nat.sub_zero, Nat.mod_self, List.replicate_zero, List.append_nil]
  rw [hone, if_pos (b64padded_all_ascii bs)]
  exact a2b_b64padded bs h 0

/-! Lemmas about the token pipeline. -/

theorem splitOnceDot_mk (p s : List Char) (hp : '.' ∉ p) :
    splitOnceDot (p ++ '.' :: s) = some (p, s) := by
  induction p with
  | nil => simp [splitOnceDot]
  | cons c t ih =>
      have hc : (c == '.') = false := by
        have : c ≠ '.' := fun h => hp (h ▸ List.mem_cons_self c t)
        simpa using this
      have ht : '.' ∉ t := fun h => hp (List.mem_cons_of_mem c h)
      simp [splitOnceDot, hc, ih ht]

theorem splitOnceDot_shape : ∀ t p s, splitOnceDot t = some (p, s) →
    t = p ++ '.' :: s ∧ '.' ∉ p := by
  intro t
  induction t with
  | nil => intro p s h; simp [splitOnceDot] at h
  | cons c rest ih =>
      intro p s h
      by_cases hc : c = '.'
      · subst hc
        simp [splitOnceDot] at h
        obtain ⟨hp, hs⟩ := h
        subst hp; subst hs
        simp
      · have hcb : (c == '.') = false := by simpa using hc
        simp only [splitOnceDot, hcb, Bool.false_eq_true, if_false] at h
        cases hrec : splitOnceDot rest with
        | none => rw [hrec] at h; simp at h
        | some pr =>
            rw [hrec] at h
            obtain ⟨p', s'⟩ := pr
            simp at h
            obtain ⟨hp, hs⟩ := h
            obtain ⟨hshape, hdot⟩ := ih p' s' hrec
            subst hp; subst hs
            constructor
            · rw [hshape]; simp
            · intro hmem
              rcases List.mem_cons.mp hmem with h | h
              · exact hc h.symm
              · exact hdot h

theorem decode_auth_token_some (mac : Bytes → Bytes → Bytes)
    (loads : Bytes → Option Json) (token : List Char) (secret : Bytes)
    (payload : Json) (h : decode_auth_token mac loads token secret = some payload) :
    ∃ p s bs, splitOnceDot token = some (p, s) ∧ b64url_decode p = some bs ∧
      s = sign_payload mac bs secret ∧ loads bs = some payload ∧
      payload.isObj = true := by
  unfold decode_auth_token at h
  cases hsplit : splitOnceDot token with
  | none => rw [hsplit] at h; simp at h
  | some ps =>
      obtain ⟨p, s⟩ := ps
      rw [hsplit] at h
      dsimp only at h
      cases hb : b64url_decode p with
      | none => rw [hb] at h; simp at h
      | some bs =>
          rw [hb] at h
          dsimp only at h
          by_cases hs : s = sign_payload mac bs secret
          · cases hl : loads bs with
            | none => rw [hl] at h; simp [hs] at h
            | some pl =>
                rw [hl] at h
                by_cases hobj : pl.isObj = true
                · refine ⟨p, s, bs, rfl, hb, hs, ?_, ?_⟩
                  · rw [hl]
                    simp [hs, hobj] at h
                    rw [h]
                  · simp [hs, hobj] at h
                    rw [← h]; exact hobj
                · simp [hs, hobj] at h
          · simp [hs] at h

theorem decode_auth_token_no_dot (mac : Bytes → Bytes → Bytes)
    (loads : Bytes → Option Json) (token : List Char) (secret : Bytes)
    (h : splitOnceDot token = none) :
    decode_auth_token mac loads token secret = none := by
  unfold decode_auth_token; rw [h]

theorem decode_auth_token_bad_b64 (mac : Bytes → Bytes → Bytes)
    (loads : Bytes → Option Json) (token : List Char) (secret : Bytes)
    (p s : List Char) (hsplit : splitOnceDot token = some (p, s))
    (hb : b64url_decode p = none) :
    decode_auth_token mac loads token secret = none := by
  unfold decode_auth_token; rw [hsplit]; dsimp only; rw [hb]

theorem decode_auth_token_wrong_sig (mac : Bytes → Bytes → Bytes)
    (loads : Bytes → Option Json) (secret : Bytes) (p s : List Char)
    (bs : Bytes) (hp : '.' ∉ p) (hb : b64url_decode p = some bs)
    (hs : s ≠ sign_payload mac bs secret) :
    decode_auth_token mac loads (p ++ '.' :: s) secret = none := by
  unfold decode_auth_token
  rw [splitOnceDot_mk p s hp]
  dsimp only
  rw [hb]
  simp [hs]

/-- Claim C4 (amended): `_decode_auth_token` returns a payload only when
the MAC recomputed over the recovered payload bytes matches the transmitted
signature segment; tokens with no separator, and tokens whose payload half
the lenient base64 decoder rejects (a residual quad after non-alphabet
characters are discarded), collapse to `none` instead of raising; and
flipping any single character of a valid token's signature segment makes
decoding return `none`.  The original claim's blanket "invalid base64
returns absent" is false of the program: the legacy decoder discards
non-alphabet characters, so a payload half containing junk can still
decode, and with a matching MAC the token is accepted — see the
counterexample. -/
theorem claim_C4 :
    (∀ (mac : Bytes → Bytes → Bytes) (loads : Bytes → Option Json) token secret payload,
      decode_auth_token mac loads token secret = some payload →
      ∃ p s bs, splitOnceDot token = some (p, s) ∧ b64url_decode p = some bs ∧
        s = sign_payload mac bs secret ∧ loads bs = some payload ∧
        payload.isObj = true) ∧
    (∀ (mac : Bytes → Bytes → Bytes) (loads : Bytes → Option Json) token secret,
      splitOnceDot token = none → decode_auth_token mac loads token secret = none) ∧
    (∀ (mac : Bytes → Bytes → Bytes) (loads : Bytes → Option Json) token secret p s,
      splitOnceDot token = some (p, s) → b64url_decode p = none →
      decode_auth_token mac loads token secret = none) ∧
    (∀ (mac : Bytes → Bytes → Bytes) (loads : Bytes → Option Json) token secret
      p s u v (a b : Char) payload,
      splitOnceDot token = some (p, s) →
      decode_auth_token mac loads token secret = some payload →
      s = u ++ a :: v → b ≠ a →
      decode_auth_token mac loads (p ++ '.' :: (u ++ b :: v)) secret = none) := by
  refine ⟨decode_auth_token_some, decode_auth_token_no_dot, decode_auth_token_bad_b64, ?_⟩
  intro mac loads token secret p s u v a b payload hsplit hdec hflip hne
  obtain ⟨p', s', bs, hsplit', hb, hsig, _, _⟩ :=
    decode_auth_token_some mac loads token secret payload hdec
  rw [hsplit] at hsplit'
  simp only [Option.some.injEq, Prod.mk.injEq] at hsplit'
  obtain ⟨hp, hs⟩ := hsplit'
  subst hp; subst hs
  have hdotfree : '.' ∉ p := (splitOnceDot_shape token p s hsplit).2
  refine decode_auth_token_wrong_sig mac loads secret p (u ++ b :: v) bs hdotfree hb ?_
  rw [← hsig, hflip]
  intro hcontra
  exact hne (List.cons.injEq b v a v ▸ (List.append_cancel_left hcontra)).1

/-- Concrete digest function for witnesses: a fixed three-byte tag. -/
def macW : Bytes → Bytes → Bytes := fun _ _ => [7, 200, 33]

/-- Concrete token payload for witnesses, shaped like an issued login
payload. -/
def payloadW : Json :=
  Json.jobj [("exp", Json.jint 100), ("db_fp", fpJson ⟨5, 6⟩),
    ("user_id", Json.jint 1), ("username", Json.jstr ['a', 'l', 'i', 'c', 'e'])]

/-- Concrete deserializer for witnesses, agreeing with `json.loads` on the
one payload byte string the witnesses use. -/
def loadsW : Bytes → Option Json := fun _ => some payloadW

/-- Concrete well-signed token for witnesses. -/
def tokenW : List Char := b64url_encode [97] ++ '.' :: b64url_encode [7, 200, 33]

theorem claim_C4_witness :
    (∃ p s bs, splitOnceDot tokenW = some (p, s) ∧ b64url_decode p = some bs ∧
      s = sign_payload macW bs [1] ∧ loadsW bs = some payloadW ∧
      payloadW.isObj = true) ∧
    decode_auth_token macW loadsW ['x', 'y'] [1] = none ∧
    decode_auth_token macW loadsW ['A', '.', 'x'] [1] = none ∧
    decode_auth_token macW loadsW
      (['Y', 'Q'] ++ '.' :: ([] ++ 'X' :: ['8', 'g', 'h'])) [1] = none := by
  refine ⟨claim_C4.1 macW loadsW tokenW [1] payloadW rfl,
    claim_C4.2.1 macW loadsW ['x', 'y'] [1] rfl,
    claim_C4.2.2.1 macW loadsW ['A', '.', 'x'] [1] ['A'] ['x'] rfl rfl,
    claim_C4.2.2.2 macW loadsW tokenW [1] ['Y', 'Q'] ['B', '8', 'g', 'h'] []
      ['8', 'g', 'h'] 'B' 'X' payloadW (by decide) rfl rfl (by decide)⟩

/-- Counterexample to the original C4: the payload half `YW#Fh` contains
the non-alphabet character `#`, yet the program still accepts the token —
`base64.urlsafe_b64decode` discards the junk character, the remaining
characters decode to the original payload bytes, and the MAC matches — so
"invalid base64" input does not always return absent. -/
theorem claim_C4_counterexample :
    decode_auth_token macW loadsW
      (['Y', 'W', '#', 'F', 'h'] ++ '.' :: ['B', '8', 'g', 'h']) [1] = some payloadW ∧
    b64CharVal '#' = none ∧
    b64url_decode ['Y', 'W', '#', 'F', 'h'] = some [97, 97, 97] := ⟨rfl, rfl, rfl⟩

/-- Claim C9: the decoder compares the transmitted signature segment as a
base64url string against the freshly encoded expected MAC.  A token is
accepted only when its signature segment is exactly the canonical unpadded
base64url encoding of the correct MAC (which never contains `=`), and any
other segment — in particular the padded base64 spelling of those very same
MAC bytes — is rejected. -/
theorem claim_C9 :
    (∀ (mac : Bytes → Bytes → Bytes) (loads : Bytes → Option Json) token secret
      payload p s bs,
      decode_auth_token mac loads token secret = some payload →
      splitOnceDot token = some (p, s) → b64url_decode p = some bs →
      s = b64url_encode (mac secret bs)) ∧
    (∀ bs : Bytes, '=' ∉ b64url_encode bs) ∧
    (∀ bs : Bytes, bs.length % 3 = 2 → (∀ b ∈ bs, b < 256) →
      b64url_decode (b64url_encode bs ++ ['=']) = some bs) ∧
    (∀ (mac : Bytes → Bytes → Bytes) (loads : Bytes → Option Json) secret p bs s',
      '.' ∉ p → b64url_decode p = some bs →
      s' ≠ b64url_encode (mac secret bs) →
      decode_auth_token mac loads (p ++ '.' :: s') secret = none) := by
  refine ⟨?_, ?_, b64url_decode_encode_padded, ?_⟩
  · intro mac loads token secret payload p s bs hdec hsplit hb
    obtain ⟨p', s', bs', hsplit', hb', hsig, _, _⟩ :=
      decode_auth_token_some mac loads token secret payload hdec
    rw [hsplit] at hsplit'
    simp only [Option.some.injEq, Prod.mk.injEq] at hsplit'
    obtain ⟨hp, hs⟩ := hsplit'
    subst hp; subst hs
    rw [hb] at hb'
    simp only [Option.some.injEq] at hb'
    subst hb'
    exact hsig
  · intro bs hmem
    exact (b64padded_structure bs).2.1 '=' hmem rfl
  · intro mac loads secret p bs s' hp hb hs
    exact decode_auth_token_wrong_sig mac loads secret p s' bs hp hb hs

theorem claim_C9_witness :
    (['B', '8', 'g', 'h'] : List Char) = b64url_encode (macW [1] [97]) ∧
    b64url_decode (b64url_encode [1, 2] ++ ['=']) = some [1, 2] ∧
    decode_auth_token macW loadsW (['Y', 'Q'] ++ '.' :: ['B', '8', 'g', 'h', '=']) [1] =
      none := by
  refine ⟨claim_C9.1 macW loadsW tokenW [1] payloadW ['Y', 'Q'] ['B', '8', 'g', 'h'] [97]
      rfl rfl rfl,
    claim_C9.2.2.1 [1, 2] (by decide) (by decide),
    claim_C9.2.2.2 macW loadsW [1] ['Y', 'Q'] [97] ['B', '8', 'g', 'h', '=']
      (by decide) rfl (by decide)⟩

/-! Lemmas about the restore path. -/

theorem decode_some_token_nonempty (mac : Bytes → Bytes → Bytes)
    (loads : Bytes → Option Json) (token : List Char) (secret : Bytes)
    (payload : Json) (h : decode_auth_token mac loads token secret = some payload) :
    token.isEmpty = false := by
  cases token with
  | nil => exact absurd h (by simp [decode_auth_token, splitOnceDot])
  | cons c rest => rfl

theorem restore_eval (mac : Bytes → Bytes → Bytes) (loads : Bytes → Option Json)
    (sec : Bytes) (token : List Char) (now : Int) (fp : Option Fingerprint)
    (payload : Json) (hdec : decode_auth_token mac loads token sec = some payload) :
    restore_auth_from_cookie mac loads none (some sec) (some token) now fp =
      restoreFromPayload payload now fp := by
  have hne := decode_some_token_nonempty mac loads token sec payload hdec
  unfold restore_auth_from_cookie
  dsimp only
  rw [hne]
  simp only [Bool.false_eq_true, if_false]
  rw [hdec]

theorem restoreFromPayload_expired (payload : Json) (now : Int)
    (fp : Option Fingerprint) (e : Int)
    (hexp : expNum (payloadGet payload "exp") = some e) (hlt : now > e) :
    restoreFromPayload payload now fp = none := by
  unfold restoreFromPayload
  rw [hexp]
  simp [hlt]

theorem restoreFromPayload_live (payload : Json) (now : Int)
    (fp : Option Fingerprint) (e : Int) (a : AuthState)
    (hexp : expNum (payloadGet payload "exp") = some e)
    (hres : restoreFromPayload payload now fp = some a) : e ≥ now := by
  by_cases hlt : now > e
  · rw [restoreFromPayload_expired payload now fp e hexp hlt] at hres
    exact absurd hres (by simp)
  · omega

theorem matchesFp_fpJson (f1 f2 : Fingerprint) :
    matchesFp (fpJson f1) f2 = (f1.size == f2.size && f1.mtime == f2.mtime) := by
  simp [matchesFp, fpJson, jNumEqInt, List.find?]

theorem restoreFromPayload_fp_mismatch (payload : Json) (now : Int)
    (f1 f2 : Fingerprint) (hdb : payloadGet payload "db_fp" = some (fpJson f1))
    (hne : f2.size ≠ f1.size ∨ f2.mtime ≠ f1.mtime) :
    restoreFromPayload payload now (some f2) = none := by
  unfold restoreFromPayload
  cases hexp : expNum (payloadGet payload "exp") with
  | none => rfl
  | some e =>
      dsimp only
      by_cases hlt : now > e
      · simp [hlt]
      · have hm : matchesFp (fpJson f1) f2 = false := by
          rw [matchesFp_fpJson]
          rcases hne with h | h
          · have hb : (f1.size == f2.size) = false := by
              simpa using fun hc => h (Eq.symm hc)
            simp [hb]
          · have hb : (f1.mtime == f2.mtime) = false := by
              simpa using fun hc => h (Eq.symm hc)
            simp [hb]
        rw [hdb]
        simp [hlt, hm]

/-- Claim C5 (amended): restoration returns an identity only if the
payload's expiry satisfies `expires_at ≥ now` — the source checks
`time.time() > float(exp)` — so a token whose `expires_at` is strictly in
the past fails restoration regardless of the fingerprint and signature,
while at the boundary `expires_at = now` restoration is still possible. -/
theorem claim_C5 :
    (∀ (mac : Bytes → Bytes → Bytes) (loads : Bytes → Option Json) sec token
      (now : Int) fp payload e,
      decode_auth_token mac loads token sec = some payload →
      expNum (payloadGet payload "exp") = some e → now > e →
      restore_auth_from_cookie mac loads none (some sec) (some token) now fp = none) ∧
    (∀ (mac : Bytes → Bytes → Bytes) (loads : Bytes → Option Json) sec token
      (now : Int) fp payload e a,
      decode_auth_token mac loads token sec = some payload →
      expNum (payloadGet payload "exp") = some e →
      restore_auth_from_cookie mac loads none (some sec) (some token) now fp = some a →
      e ≥ now) := by
  constructor
  · intro mac loads sec token now fp payload e hdec hexp hlt
    rw [restore_eval mac loads sec token now fp payload hdec]
    exact restoreFromPayload_expired payload now fp e hexp hlt
  · intro mac loads sec token now fp payload e a hdec hexp hres
    rw [restore_eval mac loads sec token now fp payload hdec] at hres
    exact restoreFromPayload_live payload now fp e a hexp hres

theorem claim_C5_witness :
    restore_auth_from_cookie macW loadsW none (some [1]) (some tokenW) 101
        (some ⟨5, 6⟩) = none ∧
    (100 : Int) ≥ 100 := by
  refine ⟨claim_C5.1 macW loadsW [1] tokenW 101 (some ⟨5, 6⟩) payloadW 100 rfl rfl
      (by norm_num),
    claim_C5.2 macW loadsW [1] tokenW 100 (some ⟨5, 6⟩) payloadW 100
      ⟨1, ['a', 'l', 'i', 'c', 'e']⟩ rfl rfl rfl⟩

theorem claim_C5_counterexample :
    restore_auth_from_cookie macW loadsW none (some [1]) (some tokenW) 100
        (some ⟨5, 6⟩) = some ⟨1, ['a', 'l', 'i', 'c', 'e']⟩ ∧
    expNum (payloadGet payloadW "exp") = some 100 := by
  exact ⟨rfl, rfl⟩

/-- Claim C6: a token carrying fingerprint `F1` fails restoration whenever
the storage file's current fingerprint `F2` differs from `F1` in either
component, for every clock value and regardless of the (valid) signature;
the comparison is the exact structural equality of the two records. -/
theorem claim_C6 :
    ∀ (mac : Bytes → Bytes → Bytes) (loads : Bytes → Option Json) sec token
      (now : Int) (f1 f2 : Fingerprint) payload,
      decode_auth_token mac loads token sec = some payload →
      payloadGet payload "db_fp" = some (fpJson f1) →
      f2.size ≠ f1.size ∨ f2.mtime ≠ f1.mtime →
      restore_auth_from_cookie mac loads none (some sec) (some token) now
        (some f2) = none := by
  intro mac loads sec token now f1 f2 payload hdec hdb hne
  rw [restore_eval mac loads sec token now (some f2) payload hdec]
  exact restoreFromPayload_fp_mismatch payload now f1 f2 hdb hne

theorem claim_C6_witness :
    restore_auth_from_cookie macW loadsW none (some [1]) (some tokenW) 100
      (some ⟨5, 7⟩) = none := by
  exact claim_C6 macW loadsW [1] tokenW 100 ⟨5, 6⟩ ⟨5, 7⟩ payloadW rfl rfl
    (Or.inr (by decide))

/-! Lemmas about the reconciliation phases. -/

/-- Names of a deck collection, in row order. -/
def deckNames (ds : List DeckRec) : List PyStr := ds.map (·.name)

/-- The active flag the store holds for name `n`, through the same first
match `get_or_create` uses. -/
def lookupFlag (ds : List DeckRec) (n : PyStr) : Option Bool :=
  (ds.find? (fun d => d.name == n)).map (·.is_active)

/-- The flag the deck phase leaves for name `n`: the flag of the last
non-blank row named `n`, if any. -/
def rowsFlag (rows : List CsvDeckRow) (n : PyStr) : Option Bool :=
  (rows.reverse.find? (fun row => !(rowName row).isEmpty && rowName row == n)).map rowFlag

theorem lookupFlag_eq_none_iff (ds : List DeckRec) (n : PyStr) :
    lookupFlag ds n = none ↔ n ∉ deckNames ds := by
  unfold lookupFlag deckNames
  rw [Option.map_eq_none', List.find?_eq_none]
  constructor
  · intro h hmem
    obtain ⟨d, hd, hname⟩ := List.mem_map.mp hmem
    exact h d hd (by simp [hname])
  · intro h d hd hbeq
    exact h (List.mem_map.mpr ⟨d, hd, by simpa using hbeq⟩)

theorem deckNames_setFlag (ds : List DeckRec) (n : PyStr) (a : Bool) :
    deckNames (setFlag ds n a) = deckNames ds := by
  induction ds with
  | nil => rfl
  | cons d rest ih =>
      unfold setFlag
      by_cases h : d.name = n
      · simp [h, deckNames]
      · have hb : (d.name == n) = false := by simpa using h
        simp only [hb, Bool.false_eq_true, if_false]
        simpa [deckNames] using ih

theorem lookupFlag_setFlag (ds : List DeckRec) (n m : PyStr) (a : Bool) :
    lookupFlag (setFlag ds n a) m =
      if m = n then (lookupFlag ds n).map (fun _ => a) else lookupFlag ds m := by
  induction ds with
  | nil => simp [setFlag, lookupFlag]
  | cons d rest ih =>
      unfold setFlag
      by_cases hdn : d.name = n
      · have hb : (d.name == n) = true := by simpa using hdn
        simp only [hb, if_true]
        by_cases hmn : m = n
        · subst hmn
          simp [lookupFlag, List.find?, hdn]
        · have hdm : (d.name == m) = false := by
            simp only [beq_eq_false_iff_ne]
            intro hc; exact hmn (hc ▸ hdn)
          simp [lookupFlag, List.find?, hdm, hmn]
      · have hb : (d.name == n) = false := by simpa using hdn
        simp only [hb, Bool.false_eq_true, if_false]
        by_cases hdm : d.name = m
        · have hmn : ¬(m = n) := fun hc => hdn (by rw [hdm, hc])
          have hb2 : (d.name == m) = true := by simpa using hdm
          simp [lookupFlag, List.find?, hb2, hmn, hb]
        · have hb2 : (d.name == m) = false := by simpa using hdm
          have := ih
          simp only [lookupFlag, List.find?, hb2, hb] at this ⊢
          exact this

theorem applyDeckRow_skip (ds : List DeckRec) (row : CsvDeckRow)
    (h : (rowName row).isEmpty = true) : applyDeckRow ds row = ds := by
  unfold applyDeckRow
  rw [h]
  simp

theorem lookupFlag_applyDeckRow (ds : List DeckRec) (row : CsvDeckRow) (m : PyStr)
    (h : (rowName row).isEmpty = false) :
    lookupFlag (applyDeckRow ds row) m =
      if m = rowName row then some (rowFlag row) else lookupFlag ds m := by
  unfold applyDeckRow
  rw [h]
  simp only [Bool.false_eq_true, if_false]
  cases hfind : ds.find? (fun d => d.name == rowName row) with
  | none =>
      dsimp only
      by_cases hm : m = rowName row
      · subst hm
        unfold lookupFlag
        rw [List.find?_append, hfind]
        simp [rowFlag]
      · unfold lookupFlag
        rw [List.find?_append]
        have hb : (rowName row == m) = false := by
          simpa using fun hc => hm (Eq.symm hc)
        have : List.find? (fun d => d.name == m) [(⟨rowName row, rowFlag row⟩ : DeckRec)] =
            none := by
          simp [List.find?, hb]
        rw [this]
        simp [hm]
  | some d =>
      dsimp only
      by_cases hflag : (d.is_active != rowFlag row) = true
      · rw [if_pos hflag, lookupFlag_setFlag]
        by_cases hm : m = rowName row
        · subst hm
          simp [lookupFlag, hfind]
        · simp [hm]
      · rw [if_neg hflag]
        by_cases hm : m = rowName row
        · subst hm
          have : d.is_active = rowFlag row := by
            simpa using hflag
          simp [lookupFlag, hfind, this]
        · simp [hm]

theorem deckNames_applyDeckRow_present (ds : List DeckRec) (row : CsvDeckRow)
    (h : (rowName row).isEmpty = true ∨ lookupFlag ds (rowName row) ≠ none) :
    deckNames (applyDeckRow ds row) = deckNames ds := by
  rcases h with h | h
  · rw [applyDeckRow_skip ds row h]
  · unfold applyDeckRow
    by_cases hempty : (rowName row).isEmpty = true
    · simp [hempty]
    · simp only [hempty, Bool.false_eq_true, if_false]
      cases hfind : ds.find? (fun d => d.name == rowName row) with
      | none => exact absurd (by simp [lookupFlag, hfind]) h
      | some d =>
          dsimp only
          split
          · exact deckNames_setFlag ds (rowName row) (rowFlag row)
          · rfl

theorem deckNames_applyDeckRow_new (ds : List DeckRec) (row : CsvDeckRow)
    (h : (rowName row).isEmpty = false) (habs : lookupFlag ds (rowName row) = none) :
    deckNames (applyDeckRow ds row) = deckNames ds ++ [rowName row] := by
  unfold applyDeckRow
  rw [h]
  simp only [Bool.false_eq_true, if_false]
  have hfind : ds.find? (fun d => d.name == rowName row) = none := by
    unfold lookupFlag at habs
    exact Option.map_eq_none'.mp habs
  rw [hfind]
  simp [deckNames]

theorem lookupFlag_applyDeckRow_isSome (ds : List DeckRec) (row : CsvDeckRow)
    (m : PyStr) (h : lookupFlag ds m ≠ none) :
    lookupFlag (applyDeckRow ds row) m ≠ none := by
  by_cases hempty : (rowName row).isEmpty = true
  · rw [applyDeckRow_skip ds row hempty]; exact h
  · rw [lookupFlag_applyDeckRow ds row m (by simpa using hempty)]
    by_cases hm : m = rowName row <;> simp [hm, h]

theorem optMap_or {α β : Type} (f : α → β) (o o' : Option α) :
    Option.map f (o.or o') = (Option.map f o).or (Option.map f o') := by
  cases o <;> rfl

theorem rowsFlag_cons (row : CsvDeckRow) (rest : List CsvDeckRow) (m : PyStr) :
    rowsFlag (row :: rest) m = (rowsFlag rest m).or
      (if (rowName row).isEmpty = false ∧ rowName row = m
        then some (rowFlag row) else none) := by
  unfold rowsFlag
  rw [List.reverse_cons, List.find?_append]
  have hsingle : List.find? (fun r => !(rowName r).isEmpty && rowName r == m) [row] =
      if (rowName row).isEmpty = false ∧ rowName row = m then some row else none := by
    by_cases hc : (rowName row).isEmpty = false ∧ rowName row = m
    · have hb : (!(rowName row).isEmpty && (rowName row == m)) = true := by
        rw [← hc.2]
        simp [hc.1]
      rw [if_pos hc]
      simp only [List.find?, hb]
    · have hb : (!(rowName row).isEmpty && (rowName row == m)) = false := by
        by_cases hA : (rowName row).isEmpty = false
        · have hB : ¬(rowName row = m) := fun hB => hc ⟨hA, hB⟩
          simp [hB]
        · simp only [Bool.not_eq_false] at hA
          simp [hA]
      rw [if_neg hc]
      simp only [List.find?, hb]
  rw [hsingle, optMap_or]
  congr 1
  split <;> rfl

theorem lookupFlag_applyDeckRows (rows : List CsvDeckRow) (ds : List DeckRec)
    (m : PyStr) :
    lookupFlag (applyDeckRows ds rows).1 m = (rowsFlag rows m).or (lookupFlag ds m) := by
  induction rows generalizing ds with
  | nil => simp [applyDeckRows, rowsFlag]
  | cons row rest ih =>
      show lookupFlag (applyDeckRows (applyDeckRow ds row) rest).1 m = _
      rw [ih, rowsFlag_cons]
      by_cases hempty : (rowName row).isEmpty = true
      · rw [applyDeckRow_skip ds row hempty]
        simp [hempty]
      · have hempty' : (rowName row).isEmpty = false := by simpa using hempty
        rw [lookupFlag_applyDeckRow ds row m hempty']
        by_cases hm : m = rowName row
        · subst hm
          simp only [hempty', true_and, if_pos rfl]
          rw [Option.or_assoc]
          simp
        · have : ¬(rowName row = m) := fun hc => hm hc.symm
          simp [hempty', this, hm]

theorem deckNames_applyDeckRows_stable (rows : List CsvDeckRow) (ds : List DeckRec)
    (h : ∀ row ∈ rows, (rowName row).isEmpty = false → lookupFlag ds (rowName row) ≠ none) :
    deckNames (applyDeckRows ds rows).1 = deckNames ds := by
  induction rows generalizing ds with
  | nil => rfl
  | cons row rest ih =>
      show deckNames (applyDeckRows (applyDeckRow ds row) rest).1 = _
      have hpres : (rowName row).isEmpty = true ∨ lookupFlag ds (rowName row) ≠ none := by
        by_cases hempty : (rowName row).isEmpty = true
        · exact Or.inl hempty
        · exact Or.inr (h row (List.mem_cons_self row rest) (by simpa using hempty))
      have hrest : ∀ r ∈ rest, (rowName r).isEmpty = false →
          lookupFlag (applyDeckRow ds row) (rowName r) ≠ none := by
        intro r hr hne
        exact lookupFlag_applyDeckRow_isSome ds row (rowName r)
          (h r (List.mem_cons_of_mem row hr) hne)
      rw [ih (applyDeckRow ds row) hrest, deckNames_applyDeckRow_present ds row hpres]

theorem deckNames_nodup_applyDeckRow (ds : List DeckRec) (row : CsvDeckRow)
    (h : (deckNames ds).Nodup) : (deckNames (applyDeckRow ds row)).Nodup := by
  by_cases hempty : (rowName row).isEmpty = true
  · rw [applyDeckRow_skip ds row hempty]; exact h
  · have hempty' : (rowName row).isEmpty = false := by simpa using hempty
    cases habs : lookupFlag ds (rowName row) with
    | none =>
        rw [deckNames_applyDeckRow_new ds row hempty' habs]
        have hnm : rowName row ∉ deckNames ds := (lookupFlag_eq_none_iff ds _).mp habs
        simp [List.nodup_append, h, hnm]
    | some f =>
        rw [deckNames_applyDeckRow_present ds row (Or.inr (by simp [habs]))]
        exact h

theorem deckNames_nodup_applyDeckRows (rows : List CsvDeckRow) (ds : List DeckRec)
    (h : (deckNames ds).Nodup) : (deckNames (applyDeckRows ds rows).1).Nodup := by
  induction rows generalizing ds with
  | nil => exact h
  | cons row rest ih =>
      exact ih (applyDeckRow ds row) (deckNames_nodup_applyDeckRow ds row h)

theorem lookupFlag_cons (d : DeckRec) (rest : List DeckRec) (m : PyStr) :
    lookupFlag (d :: rest) m = if d.name = m then some d.is_active else lookupFlag rest m := by
  by_cases h : d.name = m
  · have hb : (d.name == m) = true := by simpa using h
    simp [lookupFlag, List.find?, hb, h]
  · have hb : (d.name == m) = false := by simpa using h
    simp [lookupFlag, List.find?, hb, h]

theorem deckList_ext : ∀ ds ds' : List DeckRec, (deckNames ds).Nodup →
    deckNames ds = deckNames ds' → (∀ n, lookupFlag ds n = lookupFlag ds' n) →
    ds = ds' := by
  intro ds
  induction ds with
  | nil =>
      intro ds' _ hnames _
      cases ds' with
      | nil => rfl
      | cons d t => exact absurd hnames (by simp [deckNames])
  | cons d t ih =>
      intro ds' hnd hnames hlook
      cases ds' with
      | nil => exact absurd hnames (by simp [deckNames])
      | cons d' t' =>
          have hcons : d.name :: deckNames t = d'.name :: deckNames t' := by
            simpa [deckNames] using hnames
          have hname : d.name = d'.name := (List.cons.injEq _ _ _ _ ▸ hcons).1
          have htnames : deckNames t = deckNames t' := (List.cons.injEq _ _ _ _ ▸ hcons).2
          have hndt : (deckNames t).Nodup ∧ d.name ∉ deckNames t := by
            have : (d.name :: deckNames t).Nodup := by simpa [deckNames] using hnd
            exact ⟨this.of_cons, (List.nodup_cons.mp this).1⟩
          have hflag : d.is_active = d'.is_active := by
            have := hlook d.name
            rw [lookupFlag_cons, lookupFlag_cons, if_pos rfl, if_pos hname.symm] at this
            simpa using this
          have htail : t = t' := by
            refine ih t' hndt.1 htnames ?_
            intro n
            by_cases hn : n = d.name
            · have h1 : lookupFlag t n = none := by
                rw [hn]
                exact (lookupFlag_eq_none_iff t _).mpr hndt.2
              have h2 : lookupFlag t' n = none := by
                rw [hn]
                refine (lookupFlag_eq_none_iff t' _).mpr ?_
                rw [← htnames]
                exact hndt.2
              rw [h1, h2]
            · have := hlook n
              rw [lookupFlag_cons, lookupFlag_cons,
                if_neg (fun hc => hn hc.symm),
                if_neg (fun hc => hn (hname ▸ hc).symm)] at this
              exact this
          have hd : d = d' := by
            cases d; cases d'
            simp only at hname hflag
            rw [hname, hflag]
          rw [hd, htail]

theorem rowsFlag_ne_none_of_mem (rows : List CsvDeckRow) (row : CsvDeckRow)
    (hmem : row ∈ rows) (h : (rowName row).isEmpty = false) :
    rowsFlag rows (rowName row) ≠ none := by
  unfold rowsFlag
  intro hc
  rw [Option.map_eq_none', List.find?_eq_none] at hc
  exact hc row (List.mem_reverse.mpr hmem) (by simp [h])

theorem applyDeckRows_absorb (ds : List DeckRec) (rows : List CsvDeckRow)
    (hnd : (deckNames ds).Nodup) :
    (applyDeckRows (applyDeckRows ds rows).1 rows).1 = (applyDeckRows ds rows).1 := by
  refine deckList_ext _ _ ?_ ?_ ?_
  · exact deckNames_nodup_applyDeckRows rows _ (deckNames_nodup_applyDeckRows rows ds hnd)
  · refine deckNames_applyDeckRows_stable rows _ ?_
    intro row hrow hne
    rw [lookupFlag_applyDeckRows]
    cases hrf : rowsFlag rows (rowName row) with
    | none => exact absurd hrf (rowsFlag_ne_none_of_mem rows row hrow hne)
    | some f => simp
  · intro n
    rw [lookupFlag_applyDeckRows, lookupFlag_applyDeckRows, ← Option.or_assoc,
      Option.or_self]

/-- Opponent-deck collection after the result phase's `get_or_create`s. -/
def oppsAfter (os : List DeckRec) (rows : List CsvResultRow) : List DeckRec :=
  rows.foldl resultRowOpps os

theorem applyResultRows_fst (rows : List CsvResultRow) (today : PyDate)
    (os : List DeckRec) (rs : List ResultRec) :
    (applyResultRows today os rs rows).1 = oppsAfter os rows := by
  induction rows generalizing os rs with
  | nil => rfl
  | cons row rest ih => exact ih (resultRowOpps os row) (rs ++ [convResultRow today row])

theorem applyResultRows_snd (rows : List CsvResultRow) (today : PyDate)
    (os : List DeckRec) (rs : List ResultRec) :
    (applyResultRows today os rs rows).2 = rs ++ rows.map (convResultRow today) := by
  induction rows generalizing os rs with
  | nil => simp [applyResultRows]
  | cons row rest ih =>
      show (applyResultRows today (resultRowOpps os row)
        (rs ++ [convResultRow today row]) rest).2 = _
      rw [ih]
      simp

/-- Flag contributed by the result phase for opponent name `m`: newly
referenced names are created active. -/
def refFlag (rows : List CsvResultRow) (m : PyStr) : Option Bool :=
  if rows.any (fun row => !(oppRef row).isEmpty && oppRef row == m) then some true
  else none

theorem resultRowOpps_present (os : List DeckRec) (row : CsvResultRow)
    (h : (oppRef row).isEmpty = true ∨ lookupFlag os (oppRef row) ≠ none) :
    resultRowOpps os row = os := by
  unfold resultRowOpps
  rcases h with h | h
  · rw [h]; simp
  · by_cases hempty : (oppRef row).isEmpty = true
    · rw [hempty]; simp
    · have hempty' : (oppRef row).isEmpty = false := by simpa using hempty
      rw [hempty']
      simp only [Bool.false_eq_true, if_false]
      cases hfind : os.find? (fun d => d.name == oppRef row) with
      | none => exact absurd (by simp [lookupFlag, hfind]) h
      | some d => rfl

theorem lookupFlag_resultRowOpps (os : List DeckRec) (row : CsvResultRow) (m : PyStr) :
    lookupFlag (resultRowOpps os row) m = (lookupFlag os m).or
      (if (oppRef row).isEmpty = false ∧ oppRef row = m then some true else none) := by
  unfold resultRowOpps
  by_cases hempty : (oppRef row).isEmpty = true
  · rw [hempty]
    simp [hempty]
  · have hempty' : (oppRef row).isEmpty = false := by simpa using hempty
    rw [hempty']
    simp only [Bool.false_eq_true, if_false]
    cases hfind : os.find? (fun d => d.name == oppRef row) with
    | none =>
        dsimp only
        by_cases hm : oppRef row = m
        · have hfind2 : os.find? (fun d => d.name == m) = none := by
            rw [← hm]; exact hfind
          have hb : ((⟨oppRef row, true⟩ : DeckRec).name == m) = true := by simpa using hm
          unfold lookupFlag
          rw [List.find?_append, hfind2]
          simp [List.find?, hb, hempty', hm]
        · unfold lookupFlag
          rw [List.find?_append]
          have hb : ((⟨oppRef row, true⟩ : DeckRec).name == m) = false := by simpa using hm
          simp [List.find?, hb, hempty', hm]
    | some d =>
        dsimp only
        by_cases hm : oppRef row = m
        · have hos : lookupFlag os m ≠ none := by
            rw [← hm]
            simp [lookupFlag, hfind]
          cases hlk : lookupFlag os m with
          | none => exact absurd hlk hos
          | some f => simp
        · simp [hempty', hm]

theorem refFlag_cons (row : CsvResultRow) (rest : List CsvResultRow) (m : PyStr) :
    refFlag (row :: rest) m =
      (if (oppRef row).isEmpty = false ∧ oppRef row = m then some true else none).or
        (refFlag rest m) := by
  by_cases hc : (oppRef row).isEmpty = false ∧ oppRef row = m
  · have hb : (!(oppRef row).isEmpty && (oppRef row == m)) = true := by
      rw [← hc.2]; simp [hc.1]
    have h1 : refFlag (row :: rest) m = some true := by
      unfold refFlag
      rw [List.any_cons, hb]
      simp
    rw [h1, if_pos hc, Option.or_some]
  · have hb : (!(oppRef row).isEmpty && (oppRef row == m)) = false := by
      by_cases hA : (oppRef row).isEmpty = false
      · have hB : ¬(oppRef row = m) := fun hB => hc ⟨hA, hB⟩
        simp [hB]
      · simp only [Bool.not_eq_false] at hA
        simp [hA]
    have h1 : refFlag (row :: rest) m = refFlag rest m := by
      unfold refFlag
      rw [List.any_cons, hb]
      simp
    rw [h1, if_neg hc]
    cases refFlag rest m <;> rfl

theorem lookupFlag_oppsAfter (rows : List CsvResultRow) (os : List DeckRec) (m : PyStr) :
    lookupFlag (oppsAfter os rows) m = (lookupFlag os m).or (refFlag rows m) := by
  induction rows generalizing os with
  | nil => simp [oppsAfter, refFlag]
  | cons row rest ih =>
      show lookupFlag (oppsAfter (resultRowOpps os row) rest) m = _
      rw [ih, lookupFlag_resultRowOpps, refFlag_cons, Option.or_assoc]

theorem oppsAfter_stable (rows : List CsvResultRow) (os : List DeckRec)
    (h : ∀ row ∈ rows, (oppRef row).isEmpty = false → lookupFlag os (oppRef row) ≠ none) :
    oppsAfter os rows = os := by
  induction rows with
  | nil => rfl
  | cons row rest ih =>
      have hhead : resultRowOpps os row = os := by
        refine resultRowOpps_present os row ?_
        by_cases hempty : (oppRef row).isEmpty = true
        · exact Or.inl hempty
        · exact Or.inr (h row (List.mem_cons_self row rest) (by simpa using hempty))
      show oppsAfter (resultRowOpps os row) rest = os
      rw [hhead]
      exact ih (fun r hr => h r (List.mem_cons_of_mem row hr))

theorem deckNames_nodup_resultRowOpps (os : List DeckRec) (row : CsvResultRow)
    (h : (deckNames os).Nodup) : (deckNames (resultRowOpps os row)).Nodup := by
  unfold resultRowOpps
  by_cases hempty : (oppRef row).isEmpty = true
  · rw [hempty]; simpa using h
  · have hempty' : (oppRef row).isEmpty = false := by simpa using hempty
    rw [hempty']
    simp only [Bool.false_eq_true, if_false]
    cases hfind : os.find? (fun d => d.name == oppRef row) with
    | some d => exact h
    | none =>
        dsimp only
        have hnm : oppRef row ∉ deckNames os := by
          refine (lookupFlag_eq_none_iff os _).mp ?_
          simp [lookupFlag, hfind]
        simp [deckNames, List.nodup_append]
        refine ⟨by simpa [deckNames] using h, ?_⟩
        intro d hd hc
        exact hnm (by simpa [deckNames, hc] using List.mem_map_of_mem (·.name) hd)

theorem deckNames_nodup_oppsAfter (rows : List CsvResultRow) (os : List DeckRec)
    (h : (deckNames os).Nodup) : (deckNames (oppsAfter os rows)).Nodup := by
  induction rows generalizing os with
  | nil => exact h
  | cons row rest ih =>
      exact ih (resultRowOpps os row) (deckNames_nodup_resultRowOpps os row h)

theorem or_ne_none_left {o o' : Option Bool} (h : o ≠ none) : o.or o' ≠ none := by
  cases o with
  | none => exact absurd rfl h
  | some a => simp

theorem or_ne_none_right {o o' : Option Bool} (h : o' ≠ none) : o.or o' ≠ none := by
  cases o with
  | none => simpa using h
  | some a => simp

theorem refFlag_of_mem (rows : List CsvResultRow) (row : CsvResultRow)
    (hmem : row ∈ rows) (h : (oppRef row).isEmpty = false) :
    refFlag rows (oppRef row) = some true := by
  have hany : (rows.any fun r => !(oppRef r).isEmpty && oppRef r == oppRef row) = true :=
    List.any_eq_true.mpr ⟨row, hmem, by simp [h]⟩
  unfold refFlag
  rw [hany]
  simp

theorem applyDeckRow_no_flip (ds : List DeckRec) (row : CsvDeckRow) (d : DeckRec)
    (hfind : ds.find? (fun x => x.name == rowName row) = some d)
    (hflag : d.is_active = rowFlag row) : applyDeckRow ds row = ds := by
  unfold applyDeckRow
  by_cases hempty : (rowName row).isEmpty = true
  · rw [hempty]; simp
  · have hempty' : (rowName row).isEmpty = false := by simpa using hempty
    rw [hempty']
    simp only [Bool.false_eq_true, if_false]
    rw [hfind]
    dsimp only
    rw [hflag]
    simp

/-- Unfolding equation: the deck component of a no-purge import. -/
theorem import_decks_eq (today : PyDate) (s : Store) (a : Archive) :
    (import_user_data today s a false).1.decks =
      (applyDeckRows s.decks (a.decks.getD [])).1 := rfl

/-- Unfolding equation: the opponent-deck component of a no-purge import. -/
theorem import_opps_eq (today : PyDate) (s : Store) (a : Archive) :
    (import_user_data today s a false).1.opps =
      oppsAfter (applyDeckRows s.opps (a.opponent_decks.getD [])).1
        (a.results.getD []) := by
  show (applyResultRows today _ _ _).1 = _
  exact applyResultRows_fst _ _ _ _

/-- Unfolding equation: the result component of a no-purge import. -/
theorem import_results_eq (today : PyDate) (s : Store) (a : Archive) :
    (import_user_data today s a false).1.results =
      s.results ++ (a.results.getD []).map (convResultRow today) := by
  show (applyResultRows today _ _ _).2 = _
  exact applyResultRows_snd _ _ _ _

/-- Claim C2: re-applying the same archive's reference rows (the whole
no-purge import run twice) leaves the deck and opponent-deck collections of
the first application unchanged — no new rows, no surviving flag change —
and an upsert whose found row already carries the row's flag is a no-op. -/
theorem claim_C2 :
    (∀ (today today' : PyDate) (s : Store) (a : Archive), Store.wf s →
      (import_user_data today' (import_user_data today s a false).1 a false).1.decks =
        (import_user_data today s a false).1.decks ∧
      (import_user_data today' (import_user_data today s a false).1 a false).1.opps =
        (import_user_data today s a false).1.opps) ∧
    (∀ (ds : List DeckRec) (row : CsvDeckRow) (d : DeckRec),
      ds.find? (fun x => x.name == rowName row) = some d →
      d.is_active = rowFlag row → applyDeckRow ds row = ds) := by
  refine ⟨?_, applyDeckRow_no_flip⟩
  intro today today' s a hwf
  obtain ⟨hwfd, hwfo⟩ := hwf
  constructor
  · simp only [import_decks_eq]
    exact applyDeckRows_absorb s.decks (a.decks.getD []) hwfd
  · simp only [import_opps_eq]
    have hnt : (deckNames (applyDeckRows s.opps (a.opponent_decks.getD [])).1).Nodup :=
      deckNames_nodup_applyDeckRows _ s.opps hwfo
    have hnu : (deckNames (oppsAfter
        (applyDeckRows s.opps (a.opponent_decks.getD [])).1 (a.results.getD []))).Nodup :=
      deckNames_nodup_oppsAfter _ _ hnt
    have hpres : ∀ row ∈ a.opponent_decks.getD [], (rowName row).isEmpty = false →
        lookupFlag (oppsAfter (applyDeckRows s.opps (a.opponent_decks.getD [])).1
          (a.results.getD [])) (rowName row) ≠ none := by
      intro row hrow hne
      rw [lookupFlag_oppsAfter, lookupFlag_applyDeckRows]
      exact or_ne_none_left (or_ne_none_left (rowsFlag_ne_none_of_mem _ row hrow hne))
    have hstepA : (applyDeckRows (oppsAfter
        (applyDeckRows s.opps (a.opponent_decks.getD [])).1 (a.results.getD []))
          (a.opponent_decks.getD [])).1 =
        oppsAfter (applyDeckRows s.opps (a.opponent_decks.getD [])).1
          (a.results.getD []) := by
      refine deckList_ext _ _ ?_ ?_ ?_
      · exact deckNames_nodup_applyDeckRows _ _ hnu
      · exact deckNames_applyDeckRows_stable _ _ hpres
      · intro n
        simp only [lookupFlag_applyDeckRows, lookupFlag_oppsAfter]
        rw [← Option.or_assoc, ← Option.or_assoc, Option.or_self]
    rw [hstepA]
    refine oppsAfter_stable _ _ ?_
    intro row hrow hne
    rw [lookupFlag_oppsAfter]
    refine or_ne_none_right ?_
    rw [refFlag_of_mem _ row hrow hne]
    simp

/-- Fixed clock value for concrete witnesses. -/
def today0 : PyDate := ⟨2024, 1, 1⟩

/-- Concrete archive deck row. -/
def rowA : CsvDeckRow := ⟨some ['A'], some ['1']⟩

/-- Concrete archive opponent-deck row. -/
def rowB : CsvDeckRow := ⟨some ['B'], some ['0']⟩

/-- Concrete archive result row referencing an opponent deck `X` that no
opponent entry lists. -/
def rowResX : CsvResultRow :=
  ⟨some ['2', '0', '2', '4', '-', '0', '1', '-', '0', '1'], some ['A'], some ['X'],
    some [], some ['w'], some []⟩

/-- Concrete archive for witnesses. -/
def archW : Archive := ⟨some [rowA], some [rowB], some [rowResX]⟩

/-- Concrete well-formed prior store for witnesses. -/
def storeW : Store :=
  ⟨[⟨['C'], true⟩], [⟨['D'], false⟩], [⟨⟨2023, 5, 2⟩, ['C'], none, [], ['w'], []⟩]⟩

theorem claim_C2_witness :
    ((import_user_data today0 (import_user_data today0 storeW archW false).1 archW
        false).1.decks = (import_user_data today0 storeW archW false).1.decks ∧
      (import_user_data today0 (import_user_data today0 storeW archW false).1 archW
        false).1.opps = (import_user_data today0 storeW archW false).1.opps) ∧
    applyDeckRow [⟨['A'], true⟩] rowA = [⟨['A'], true⟩] := by
  refine ⟨claim_C2.1 today0 today0 storeW archW ⟨by decide, by decide⟩,
    claim_C2.2 [⟨['A'], true⟩] rowA ⟨['A'], true⟩ rfl rfl⟩

/-- Claim C3: a no-purge import appends exactly one result row per archive
result row and never touches existing ones, so importing an archive with
`n` result rows twice leaves the original count plus `2 * n`. -/
theorem claim_C3 :
    ∀ (today today' : PyDate) (s : Store) (a : Archive), Store.wf s →
      ((import_user_data today' (import_user_data today s a false).1 a
          false).1.results).length =
        s.results.length + 2 * (a.results.getD []).length ∧
      (import_user_data today s a false).1.results =
        s.results ++ (a.results.getD []).map (convResultRow today) := by
  intro today today' s a hwf
  constructor
  · rw [import_results_eq, import_results_eq]
    simp only [List.length_append, List.length_map]
    omega
  · exact import_results_eq today s a

theorem claim_C3_witness :
    ((import_user_data today0 (import_user_data today0 storeW archW false).1 archW
        false).1.results).length =
      storeW.results.length + 2 * (archW.results.getD []).length ∧
    (import_user_data today0 storeW archW false).1.results =
      storeW.results ++ (archW.results.getD []).map (convResultRow today0) :=
  claim_C3 today0 today0 storeW archW ⟨by decide, by decide⟩

/-- Claim C10: a result row whose `match_result` strips to the empty string
is still inserted, with the win marker `〇` in place of the empty value; in
particular re-importing an exported result with empty `match_result` stores
a win. -/
theorem claim_C10 :
    (∀ (today : PyDate) (s : Store) (a : Archive) rows1 rows2 row,
      a.results = some (rows1 ++ row :: rows2) →
      pyStrip (getS row.match_result) = [] →
      (import_user_data today s a false).1.results =
        s.results ++ rows1.map (convResultRow today) ++
          convResultRow today row :: rows2.map (convResultRow today) ∧
      (convResultRow today row).match_result = "〇".toList) ∧
    (∀ (today : PyDate) (r : ResultRec), r.match_result = [] →
      (convResultRow today (exportResultRow r)).match_result = "〇".toList) := by
  constructor
  · intro today s a rows1 rows2 row ha hm
    constructor
    · rw [import_results_eq, ha]
      simp [List.map_append]
    · simp [convResultRow, hm]
  · intro today r hr
    simp [convResultRow, exportResultRow, getS, hr, pyStrip, isPySpace]

/-- Concrete result row with a whitespace-only `match_result`. -/
def rowResEmpty : CsvResultRow :=
  ⟨some ['2', '0', '2', '4', '-', '0', '1', '-', '0', '1'], some ['A'], some [],
    some [], some [' '], some []⟩

/-- Concrete stored result with an empty `match_result`. -/
def recResEmpty : ResultRec := ⟨⟨2023, 5, 2⟩, ['C'], none, [], [], []⟩

theorem claim_C10_witness :
    ((import_user_data today0 storeW ⟨none, none, some [rowResEmpty]⟩ false).1.results =
      storeW.results ++ ([] : List CsvResultRow).map (convResultRow today0) ++
        convResultRow today0 rowResEmpty ::
          ([] : List CsvResultRow).map (convResultRow today0) ∧
      (convResultRow today0 rowResEmpty).match_result = "〇".toList) ∧
    (convResultRow today0 (exportResultRow recResEmpty)).match_result = "〇".toList := by
  refine ⟨claim_C10.1 today0 storeW ⟨none, none, some [rowResEmpty]⟩ [] [] rowResEmpty
      rfl (by decide),
    claim_C10.2 today0 recResEmpty rfl⟩

/-! Date round-trip lemmas. -/

theorem digitVal_digitChar (m : Nat) : digitVal (digitChar m) = some (m % 10) := by
  have h : m % 10 < 10 := Nat.mod_lt _ (by norm_num)
  unfold digitChar
  generalize hk : m % 10 = k at h ⊢
  interval_cases k <;> decide

theorem isPySpace_digitChar (m : Nat) : isPySpace (digitChar m) = false := by
  have h : m % 10 < 10 := Nat.mod_lt _ (by norm_num)
  unfold digitChar
  generalize hk : m % 10 = k at h ⊢
  interval_cases k <;> decide

theorem dropWhile_eq_self_of_false {p : Char → Bool} (l : List Char)
    (h : ∀ c ∈ l, p c = false) : l.dropWhile p = l := by
  cases l with
  | nil => rfl
  | cons c t => simp [List.dropWhile_cons, h c (List.mem_cons_self c t)]

theorem pyStrip_of_no_space (l : PyStr) (h : ∀ c ∈ l, isPySpace c = false) :
    pyStrip l = l := by
  unfold pyStrip
  rw [dropWhile_eq_self_of_false l h,
    dropWhile_eq_self_of_false l.reverse (fun c hc => h c (List.mem_reverse.mp hc)),
    List.reverse_reverse]

theorem pyStrip_dateIso (d : PyDate) : pyStrip (dateIso d) = dateIso d := by
  refine pyStrip_of_no_space _ ?_
  intro c hc
  simp only [dateIso, List.mem_cons, List.not_mem_nil, or_false] at hc
  rcases hc with h | h | h | h | h | h | h | h | h | h <;> subst h <;>
    first
      | exact isPySpace_digitChar _
      | decide

theorem daysInMonth_le_31 (y m : Nat) : daysInMonth y m ≤ 31 := by
  unfold daysInMonth
  split_ifs <;> omega

theorem dateFromIso_dateIso (d : PyDate) (h : d.ok) : dateFromIso (dateIso d) = some d := by
  obtain ⟨h1, h2, h3, h4, h5, h6⟩ := h
  have hd31 : d.day ≤ 31 := le_trans h6 (daysInMonth_le_31 d.year d.month)
  unfold dateIso dateFromIso
  simp only [digitVal_digitChar]
  have hy : d.year / 1000 % 10 * 1000 + d.year / 100 % 10 * 100 +
      d.year / 10 % 10 * 10 + d.year % 10 = d.year := by omega
  have hm : d.month / 10 % 10 * 10 + d.month % 10 = d.month := by omega
  have hd : d.day / 10 % 10 * 10 + d.day % 10 = d.day := by omega
  simp only [hy, hm, hd]
  have heta : (⟨d.year, d.month, d.day⟩ : PyDate) = d := rfl
  rw [heta]
  have hok : d.ok := ⟨h1, h2, h3, h4, h5, h6⟩
  rw [if_pos hok]
  simp

/-- Link validity of one stored result: a non-null opponent reference names
an existing opponent-deck row (referential integrity of the foreign key). -/
def oppLinkOk (s : Store) (r : ResultRec) : Prop :=
  match r.opponent_deck with
  | none => True
  | some n => n ∈ deckNames s.opps

instance (s : Store) (r : ResultRec) : Decidable (oppLinkOk s r) := by
  unfold oppLinkOk
  cases r.opponent_deck <;> infer_instance

/-- A store in export-canonical form: unique nonblank whitespace-trimmed
names, valid dates, trimmed result text fields, nonempty `match_result`,
and intact opponent references.  Every store the application itself writes
satisfies this (all creation paths strip their inputs and reject blank
names). -/
def Store.canonical (s : Store) : Prop :=
  Store.wf s ∧
  (∀ d ∈ s.decks, d.name ≠ [] ∧ pyStrip d.name = d.name) ∧
  (∀ d ∈ s.opps, d.name ≠ [] ∧ pyStrip d.name = d.name) ∧
  (∀ r ∈ s.results, r.date.ok ∧ pyStrip r.used_deck = r.used_deck ∧
    pyStrip r.play_order = r.play_order ∧ r.match_result ≠ [] ∧
    pyStrip r.match_result = r.match_result ∧ pyStrip r.note = r.note ∧
    oppLinkOk s r)

instance (s : Store) : Decidable s.canonical := by
  unfold Store.canonical Store.wf
  infer_instance

theorem rowName_exportDeckRow (d : DeckRec) (hstr : pyStrip d.name = d.name) :
    rowName (exportDeckRow d) = d.name := by
  simp [rowName, exportDeckRow, getS, hstr]

theorem rowFlag_exportDeckRow (d : DeckRec) :
    rowFlag (exportDeckRow d) = d.is_active := by
  cases hact : d.is_active <;>
    simp only [rowFlag, exportDeckRow, getS, hact, Option.getD_some] <;> decide

theorem applyDeckRows_export (ds : List DeckRec) : ∀ pre : List DeckRec,
    (deckNames (pre ++ ds)).Nodup →
    (∀ d ∈ ds, d.name ≠ [] ∧ pyStrip d.name = d.name) →
    applyDeckRows pre (ds.map exportDeckRow) = (pre ++ ds, ds.length) := by
  induction ds with
  | nil => intro pre _ _; simp [applyDeckRows]
  | cons d rest ih =>
      intro pre hnd hcanon
      obtain ⟨hne, hstr⟩ := hcanon d (List.mem_cons_self d rest)
      have hrowname : rowName (exportDeckRow d) = d.name := rowName_exportDeckRow d hstr
      have hempty : (rowName (exportDeckRow d)).isEmpty = false := by
        rw [hrowname]
        cases hn : d.name with
        | nil => exact absurd hn hne
        | cons c t => rfl
      have hnotmem : d.name ∉ deckNames pre := by
        have hmid : (d.name :: (deckNames pre ++ deckNames rest)).Nodup := by
          refine List.nodup_middle.mp ?_
          simpa [deckNames, List.map_append] using hnd
        intro hc
        exact (List.nodup_cons.mp hmid).1 (List.mem_append.mpr (Or.inl hc))
      have hfind : pre.find? (fun x => x.name == rowName (exportDeckRow d)) = none := by
        rw [hrowname]
        exact Option.map_eq_none'.mp
          ((lookupFlag_eq_none_iff pre d.name).mpr hnotmem)
      have hstep : applyDeckRow pre (exportDeckRow d) = pre ++ [d] := by
        unfold applyDeckRow
        rw [hempty]
        simp only [Bool.false_eq_true, if_false]
        rw [hfind]
        dsimp only
        rw [hrowname, rowFlag_exportDeckRow]
      have hcount : deckRowCount (exportDeckRow d) = 1 := by
        unfold deckRowCount
        rw [hempty]
        simp
      have hndrest : (deckNames ((pre ++ [d]) ++ rest)).Nodup := by
        simpa [List.append_assoc] using hnd
      have ihres := ih (pre ++ [d]) hndrest
        (fun r hr => hcanon r (List.mem_cons_of_mem d hr))
      have hunfold : applyDeckRows pre (exportDeckRow d :: rest.map exportDeckRow) =
          ((applyDeckRows (applyDeckRow pre (exportDeckRow d)) (rest.map exportDeckRow)).1,
            deckRowCount (exportDeckRow d) +
              (applyDeckRows (applyDeckRow pre (exportDeckRow d))
                (rest.map exportDeckRow)).2) := rfl
      rw [List.map_cons, hunfold, hstep, ihres, hcount]
      simp [List.append_assoc]
      omega

theorem storeExt (a b : Store) (h1 : a.decks = b.decks) (h2 : a.opps = b.opps)
    (h3 : a.results = b.results) : a = b := by
  cases a; cases b
  simp_all

theorem resultRecExt (a b : ResultRec) (h1 : a.date = b.date)
    (h2 : a.used_deck = b.used_deck) (h3 : a.opponent_deck = b.opponent_deck)
    (h4 : a.play_order = b.play_order) (h5 : a.match_result = b.match_result)
    (h6 : a.note = b.note) : a = b := by
  cases a; cases b
  simp_all

theorem convResultRow_export (today : PyDate) (r : ResultRec)
    (hok : r.date.ok) (hud : pyStrip r.used_deck = r.used_deck)
    (hpo : pyStrip r.play_order = r.play_order) (hmrne : r.match_result ≠ [])
    (hmr : pyStrip r.match_result = r.match_result) (hnt : pyStrip r.note = r.note)
    (hopp : ∀ n, r.opponent_deck = some n → n ≠ [] ∧ pyStrip n = n) :
    convResultRow today (exportResultRow r) = r := by
  have hdatene : (dateIso r.date).isEmpty = false := by simp [dateIso]
  have hmrempty : r.match_result.isEmpty = false := by
    cases hv : r.match_result with
    | nil => exact absurd hv hmrne
    | cons c t => rfl
  refine resultRecExt _ _ ?_ ?_ ?_ ?_ ?_ ?_
  · simp only [convResultRow, exportResultRow, getS, Option.getD_some]
    rw [pyStrip_dateIso, hdatene]
    simp only [Bool.false_eq_true, if_false]
    rw [dateFromIso_dateIso r.date hok]
  · simp [convResultRow, exportResultRow, getS, hud]
  · simp only [convResultRow, exportResultRow, getS, Option.getD_some]
    cases ho : r.opponent_deck with
    | none => simp [oppRef, exportResultRow, getS, ho, pyStrip, isPySpace]
    | some n =>
        have hne := (hopp n ho).1
        have hstr := (hopp n ho).2
        have hnempty : n.isEmpty = false := by
          cases hv : n with
          | nil => exact absurd hv hne
          | cons c t => rfl
        simp [oppRef, exportResultRow, getS, ho, hstr, hnempty]
  · simp [convResultRow, exportResultRow, getS, hpo]
  · simp only [convResultRow, exportResultRow, getS, Option.getD_some]
    rw [hmr, hmrempty]
    simp
  · simp [convResultRow, exportResultRow, getS, hnt]

theorem resultRowOpps_export (os : List DeckRec) (r : ResultRec)
    (hopp : ∀ n, r.opponent_deck = some n →
      pyStrip n = n ∧ lookupFlag os n ≠ none) :
    resultRowOpps os (exportResultRow r) = os := by
  refine resultRowOpps_present os (exportResultRow r) ?_
  cases ho : r.opponent_deck with
  | none =>
      refine Or.inl ?_
      simp [oppRef, exportResultRow, getS, ho, pyStrip, isPySpace]
  | some n =>
      refine Or.inr ?_
      have heq : oppRef (exportResultRow r) = n := by
        simp [oppRef, exportResultRow, getS, ho, (hopp n ho).1]
      rw [heq]
      exact (hopp n ho).2

theorem applyResultRows_export (rs : List ResultRec) : ∀ (acc : List ResultRec)
    (os : List DeckRec) (today : PyDate),
    (∀ r ∈ rs, r.date.ok ∧ pyStrip r.used_deck = r.used_deck ∧
      pyStrip r.play_order = r.play_order ∧ r.match_result ≠ [] ∧
      pyStrip r.match_result = r.match_result ∧ pyStrip r.note = r.note ∧
      ∀ n, r.opponent_deck = some n →
        n ≠ [] ∧ pyStrip n = n ∧ lookupFlag os n ≠ none) →
    applyResultRows today os acc (rs.map exportResultRow) = (os, acc ++ rs) := by
  induction rs with
  | nil => intro acc os today _; simp [applyResultRows]
  | cons r rest ih =>
      intro acc os today hcanon
      obtain ⟨hok, hud, hpo, hmrne, hmr, hnt, hopp⟩ := hcanon r (List.mem_cons_self r rest)
      have hconv : convResultRow today (exportResultRow r) = r :=
        convResultRow_export today r hok hud hpo hmrne hmr hnt
          (fun n hn => ⟨(hopp n hn).1, (hopp n hn).2.1⟩)
      have hopps : resultRowOpps os (exportResultRow r) = os :=
        resultRowOpps_export os r (fun n hn => ⟨(hopp n hn).2.1, (hopp n hn).2.2⟩)
      have hunfold : applyResultRows today os acc
          (exportResultRow r :: rest.map exportResultRow) =
          applyResultRows today (resultRowOpps os (exportResultRow r))
            (acc ++ [convResultRow today (exportResultRow r)])
            (rest.map exportResultRow) := rfl
      rw [List.map_cons, hunfold, hconv, hopps,
        ih (acc ++ [r]) os today (fun x hx => hcanon x (List.mem_cons_of_mem r hx))]
      simp

/-- The canonical round-trip at the heart of claims C1 and C7: importing the
export of a canonical store into an empty store reproduces the store
exactly, with counters equal to the row counts. -/
theorem import_export_canonical (today : PyDate) (s : Store) (hc : s.canonical) :
    import_user_data today emptyStore (export_user_data s) false =
      (s, ⟨s.decks.length, s.opps.length, s.results.length⟩) := by
  obtain ⟨⟨hwfd, hwfo⟩, hcd, hco, hcr⟩ := hc
  have hd : applyDeckRows emptyStore.decks (s.decks.map exportDeckRow) =
      (s.decks, s.decks.length) := by
    have := applyDeckRows_export s.decks [] (by simpa [deckNames] using hwfd) hcd
    simpa using this
  have ho : applyDeckRows emptyStore.opps (s.opps.map exportDeckRow) =
      (s.opps, s.opps.length) := by
    have := applyDeckRows_export s.opps [] (by simpa [deckNames] using hwfo) hco
    simpa using this
  have hr : applyResultRows today
      (applyDeckRows emptyStore.opps (s.opps.map exportDeckRow)).1 emptyStore.results
      (s.results.map exportResultRow) = (s.opps, s.results) := by
    rw [ho]
    have hcr' : ∀ r ∈ s.results, r.date.ok ∧ pyStrip r.used_deck = r.used_deck ∧
        pyStrip r.play_order = r.play_order ∧ r.match_result ≠ [] ∧
        pyStrip r.match_result = r.match_result ∧ pyStrip r.note = r.note ∧
        ∀ n, r.opponent_deck = some n →
          n ≠ [] ∧ pyStrip n = n ∧ lookupFlag s.opps n ≠ none := by
      intro r hrm
      obtain ⟨hok, hud, hpo, hmrne, hmr, hnt, hlink⟩ := hcr r hrm
      refine ⟨hok, hud, hpo, hmrne, hmr, hnt, ?_⟩
      intro n hn
      have hmem : n ∈ deckNames s.opps := by
        unfold oppLinkOk at hlink
        rw [hn] at hlink
        exact hlink
      obtain ⟨d, hd', hdn⟩ := List.mem_map.mp hmem
      obtain ⟨hne, hstr⟩ := hco d hd'
      refine ⟨hdn ▸ hne, hdn ▸ hstr, ?_⟩
      intro hcnone
      exact (lookupFlag_eq_none_iff s.opps n).mp hcnone hmem
    have := applyResultRows_export s.results [] s.opps today hcr'
    simpa using this
  have hres1 : (import_user_data today emptyStore (export_user_data s) false).1 = s := by
    refine storeExt _ _ ?_ ?_ ?_
    · show (applyDeckRows emptyStore.decks (s.decks.map exportDeckRow)).1 = s.decks
      rw [hd]
    · show (applyResultRows today
        (applyDeckRows emptyStore.opps (s.opps.map exportDeckRow)).1 emptyStore.results
        (s.results.map exportResultRow)).1 = s.opps
      rw [hr]
    · show (applyResultRows today
        (applyDeckRows emptyStore.opps (s.opps.map exportDeckRow)).1 emptyStore.results
        (s.results.map exportResultRow)).2 = s.results
      rw [hr]
  have hres2 : (import_user_data today emptyStore (export_user_data s) false).2 =
      ⟨s.decks.length, s.opps.length, s.results.length⟩ := by
    show (⟨(applyDeckRows emptyStore.decks (s.decks.map exportDeckRow)).2,
      (applyDeckRows emptyStore.opps (s.opps.map exportDeckRow)).2,
      (s.results.map exportResultRow).length⟩ : Counts) = _
    rw [hd, ho]
    simp
  calc import_user_data today emptyStore (export_user_data s) false
      = ((import_user_data today emptyStore (export_user_data s) false).1,
          (import_user_data today emptyStore (export_user_data s) false).2) := rfl
    _ = (s, ⟨s.decks.length, s.opps.length, s.results.length⟩) := by rw [hres1, hres2]

/-- Claim C1 (amended): for every identity and every canonical dataset —
unique nonblank trimmed names, valid dates, trimmed result fields, nonempty
`match_result`, intact opponent references, which is the form every
application-written store has — importing the exported archive into an
empty store reproduces the dataset exactly (hence the same sets of decks,
opponent decks and result rows), with matching counters. -/
theorem claim_C1 : ∀ (today : PyDate) (s : Store), s.canonical →
    import_user_data today emptyStore (export_user_data s) false =
      (s, ⟨s.decks.length, s.opps.length, s.results.length⟩) :=
  fun today s hc => import_export_canonical today s hc

/-- Concrete non-canonical dataset: one deck whose name is empty. -/
def badStore : Store := ⟨[⟨[], true⟩], [], []⟩

theorem claim_C1_counterexample :
    (import_user_data today0 emptyStore (export_user_data badStore) false).1.decks = [] ∧
    badStore.decks ≠ [] := ⟨rfl, by decide⟩

theorem claim_C1_witness :
    import_user_data today0 emptyStore (export_user_data storeW) false =
      (storeW, ⟨storeW.decks.length, storeW.opps.length, storeW.results.length⟩) :=
  claim_C1 today0 storeW (by decide)

/-- Claim C7 (amended): a purge-before-import first discards every prior
row of the identity (results, then decks, then opponent decks — see the
operation list of C8), and afterwards the state is exactly the state that
importing the same archive into an empty store produces; when the archive
is the export of a canonical store, that state is exactly the archived
dataset, with no leftover pre-import rows. -/
theorem claim_C7 :
    (∀ (today : PyDate) (s : Store) (a : Archive),
      import_user_data today s a true = import_user_data today emptyStore a false) ∧
    (∀ (today : PyDate) (s t : Store), t.canonical →
      import_user_data today s (export_user_data t) true =
        (t, ⟨t.decks.length, t.opps.length, t.results.length⟩)) := by
  constructor
  · intro today s a
    rfl
  · intro today s t hc
    have h1 : import_user_data today s (export_user_data t) true =
        import_user_data today emptyStore (export_user_data t) false := rfl
    rw [h1]
    exact import_export_canonical today t hc

/-- Concrete archive whose `results` entry references opponent deck `X`
although the `opponent_decks` entry is empty. -/
def archX : Archive := ⟨some [], some [], some [rowResX]⟩

theorem claim_C7_counterexample :
    (import_user_data today0 storeW archX true).1.opps = [⟨['X'], true⟩] ∧
    archX.opponent_decks = some [] ∧
    ([⟨['X'], true⟩] : List DeckRec) ≠ [] := ⟨rfl, rfl, by decide⟩

theorem claim_C7_witness :
    import_user_data today0 storeW (export_user_data storeW) true =
      (storeW, ⟨storeW.decks.length, storeW.opps.length, storeW.results.length⟩) :=
  claim_C7.2 today0 storeW storeW (by decide)

/-- One row-level mutation of the import transaction, in the order the
source performs them inside its single `transaction.atomic()` block: the
three purge deletes (results, decks, opponent decks), then one operation
per CSV row. -/
inductive ImportOp where
  | purgeResults : ImportOp
  | purgeDecks : ImportOp
  | purgeOpps : ImportOp
  | deckRow (r : CsvDeckRow) : ImportOp
  | oppRow (r : CsvDeckRow) : ImportOp
  | resultRow (r : CsvResultRow) : ImportOp
deriving DecidableEq, Repr

/-- Effect of one mutation on the identity's store slice. -/
def applyOp (today : PyDate) (s : Store) : ImportOp → Store
  | .purgeResults => ⟨s.decks, s.opps, []⟩
  | .purgeDecks => ⟨[], s.opps, s.results⟩
  | .purgeOpps => ⟨s.decks, [], s.results⟩
  | .deckRow r => ⟨applyDeckRow s.decks r, s.opps, s.results⟩
  | .oppRow r => ⟨s.decks, applyDeckRow s.opps r, s.results⟩
  | .resultRow r =>
      ⟨s.decks, resultRowOpps s.opps r, s.results ++ [convResultRow today r]⟩

/-- The full mutation sequence of `_import_user_data_zip`, all of it inside
the one `transaction.atomic()` block of the source. -/
def importOps (a : Archive) (purge_before : Bool) : List ImportOp :=
  (if purge_before then [.purgeResults, .purgeDecks, .purgeOpps] else []) ++
    (a.decks.getD []).map .deckRow ++ (a.opponent_decks.getD []).map .oppRow ++
    (a.results.getD []).map .resultRow

/-- The storage collaborator's `atomic` contract (specification §6): all
writes of the block commit together, or none do.  `failAt = some k` models a
row-level exception raised while executing operation `k` of the block; the
visible store is then the state at block entry. -/
def runAtomicImport (today : PyDate) (s : Store) (ops : List ImportOp)
    (failAt : Option Nat) : Store :=
  match failAt with
  | none => ops.foldl (applyOp today) s
  | some k => if k < ops.length then s else ops.foldl (applyOp today) s

theorem foldl_deckOps (rows : List CsvDeckRow) : ∀ (s : Store) (today : PyDate),
    (rows.map ImportOp.deckRow).foldl (applyOp today) s =
      ⟨(applyDeckRows s.decks rows).1, s.opps, s.results⟩ := by
  induction rows with
  | nil => intro s today; rfl
  | cons row rest ih =>
      intro s today
      show (rest.map ImportOp.deckRow).foldl (applyOp today)
        ⟨applyDeckRow s.decks row, s.opps, s.results⟩ = _
      rw [ih]
      rfl

theorem foldl_oppOps (rows : List CsvDeckRow) : ∀ (s : Store) (today : PyDate),
    (rows.map ImportOp.oppRow).foldl (applyOp today) s =
      ⟨s.decks, (applyDeckRows s.opps rows).1, s.results⟩ := by
  induction rows with
  | nil => intro s today; rfl
  | cons row rest ih =>
      intro s today
      show (rest.map ImportOp.oppRow).foldl (applyOp today)
        ⟨s.decks, applyDeckRow s.opps row, s.results⟩ = _
      rw [ih]
      rfl

theorem foldl_resultOps (rows : List CsvResultRow) : ∀ (s : Store) (today : PyDate),
    (rows.map ImportOp.resultRow).foldl (applyOp today) s =
      ⟨s.decks, (applyResultRows today s.opps s.results rows).1,
        (applyResultRows today s.opps s.results rows).2⟩ := by
  induction rows with
  | nil => intro s today; rfl
  | cons row rest ih =>
      intro s today
      show (rest.map ImportOp.resultRow).foldl (applyOp today)
        ⟨s.decks, resultRowOpps s.opps row, s.results ++ [convResultRow today row]⟩ = _
      rw [ih]
      rfl

theorem importOps_foldl (today : PyDate) (s : Store) (a : Archive) (purge : Bool) :
    (importOps a purge).foldl (applyOp today) s = (import_user_data today s a purge).1 := by
  unfold importOps
  rw [List.foldl_append, List.foldl_append, List.foldl_append]
  cases purge with
  | false =>
      rw [if_neg (by simp)]
      show ((a.results.getD []).map ImportOp.resultRow).foldl (applyOp today)
        (((a.opponent_decks.getD []).map ImportOp.oppRow).foldl (applyOp today)
          (((a.decks.getD []).map ImportOp.deckRow).foldl (applyOp today) s)) = _
      rw [foldl_deckOps, foldl_oppOps, foldl_resultOps]
      rfl
  | true =>
      rw [if_pos (by simp)]
      have hpurge : ([ImportOp.purgeResults, ImportOp.purgeDecks,
          ImportOp.purgeOpps] : List ImportOp).foldl (applyOp today) s = emptyStore := rfl
      rw [hpurge, foldl_deckOps, foldl_oppOps, foldl_resultOps]
      rfl

/-- Claim C8: every mutation of the import — the purge deletes and each
row-level upsert or insert — lies inside the one atomic block, so if any
operation of the block raises, the visible store is exactly the block-entry
state (no partial purge, upsert or insert); a completed block yields
exactly the functional import result. -/
theorem claim_C8 :
    (∀ (today : PyDate) (s : Store) (a : Archive) (purge : Bool),
      (importOps a purge).foldl (applyOp today) s =
        (import_user_data today s a purge).1) ∧
    (∀ (today : PyDate) (s : Store) (a : Archive) (purge : Bool) (k : Nat),
      k < (importOps a purge).length →
      runAtomicImport today s (importOps a purge) (some k) = s) ∧
    (∀ (today : PyDate) (s : Store) (ops : List ImportOp),
      runAtomicImport today s ops none = ops.foldl (applyOp today) s) := by
  refine ⟨importOps_foldl, ?_, fun today s ops => rfl⟩
  intro today s a purge k hk
  unfold runAtomicImport
  dsimp only
  rw [if_pos hk]

theorem claim_C8_witness :
    runAtomicImport today0 storeW (importOps archW true) (some 0) = storeW :=
  claim_C8.2.1 today0 storeW archW true 0 (by decide)
